import Mathlib

/-!
Verification of the Jyro VS Code document analyzer core
(`DocumentAnalyzer` in the language server, together with the standard
library function registry).

The analyzer is line-oriented TypeScript code built on JavaScript regular
expressions and string utilities.  We embed it shallowly: a document line is
a `List Char`, each regex scan of the source is modelled by an executable
scanner that follows the JavaScript engine's semantics for that concrete
pattern (leftmost match, greedy repetition, `lastIndex` resumption after the
full match), and JavaScript string helpers (`trim`, `indexOf`, `includes`,
`replace` with the specific patterns used) are modelled by executable
functions.  Scanners that skip ahead past a match are written with an
explicit fuel argument (structurally decreasing, initial fuel
`length + 1` is always sufficient because every step advances the scan
position by at least one) so that every definition reduces in the kernel.

Character positions are carried as `Int` because the source stores results
of `String.prototype.indexOf`, which is `-1` when the needle is absent.
The two places where the TypeScript could fail at runtime (the non-null
assertion on `blockStack.pop()` and the index into `this.lines` for the
unclosed-block diagnostic) are modelled with `Option`.
-/

/-- A document line, after splitting the input text on newlines. -/
abbrev Line := List Char

/-- JavaScript `\w` character class: ASCII letters, digits and underscore. -/
def isWordChar (c : Char) : Bool := c.isAlphanum || c == '_'

/-- JavaScript `\s` character class, restricted to the ASCII whitespace
characters (the analyzer's keywords and checks are ASCII-only). -/
def isSpaceChar (c : Char) : Bool :=
  c == ' ' || c == '\t' || c == '\n' || c == '\r' || c == '\x0b' || c == '\x0c'

/-- JavaScript `String.prototype.trim`. -/
def jsTrim (l : Line) : Line :=
  ((l.dropWhile isSpaceChar).reverse.dropWhile isSpaceChar).reverse

/-- `line.length - line.trimStart().length`: the number of leading
whitespace characters, as computed by the source for position reporting. -/
def leadingWs (l : Line) : Nat := l.length - (l.dropWhile isSpaceChar).length

/-- Number of `"` characters on the raw line (`line.match(/"/g)` count). -/
def countQuotes (l : Line) : Nat := (l.filter fun c => c == '"').length

/-- `replace(/#.*$/, '')`: delete everything from the first `#` on. -/
def stripComment (l : Line) : Line := l.takeWhile fun c => c != '#'

/-- `String.prototype.toLowerCase`, character by character (the registry
names compared with it are ASCII). -/
def lowerStr (s : String) : String := String.mk (s.data.map Char.toLower)

/-- Fueled worker for `replace(/"[^"]*"/g, '""')`: each complete quoted
literal collapses to `""`; a lone unmatched quote is left untouched (the
pattern requires a closing quote).  Fuel `length + 1` always suffices. -/
def stripStringsGo : Nat → Line → Line
  | 0, _ => []
  | _ + 1, [] => []
  | fuel + 1, c :: rest =>
    if c == '"' then
      match rest.dropWhile (fun d => d != '"') with
      | [] => c :: rest
      | _ :: after => '"' :: '"' :: stripStringsGo fuel after
    else c :: stripStringsGo fuel rest

/-- `replace(/"[^"]*"/g, '""')`. -/
def stripStrings (l : Line) : Line := stripStringsGo (l.length + 1) l

/-- Word boundary `\b` test on the left of position `i` of `l`. -/
def bdryBefore (l : Line) (i : Nat) : Bool :=
  match i with
  | 0 => true
  | j + 1 =>
    match l[j]? with
    | some c => !isWordChar c
    | none => true

/-- Word boundary `\b` test for the suffix that follows a token. -/
def boundaryAfter (s : Line) : Bool :=
  match s with
  | [] => true
  | c :: _ => !isWordChar c

/-- Does the keyword `kw` match at position `i` of `l` with `\b` on both
sides (pattern `\bkw\b` anchored at `i`)? -/
def tokenAtIdx (kw : Line) (l : Line) (i : Nat) : Bool :=
  bdryBefore l i && kw.isPrefixOf (l.drop i) && boundaryAfter (l.drop (i + kw.length))

/-- `/\bkw\b/.test(l)`. -/
def hasToken (kw : String) (l : Line) : Bool :=
  (List.range (l.length + 1)).any fun i => tokenAtIdx kw.data l i

/-- `String.prototype.includes`. -/
def jsIncludes (needle hay : Line) : Bool :=
  hay.tails.any fun t => needle.isPrefixOf t

/-- Fueled worker for `String.prototype.indexOf` (first position `≥ i`
where `needle` occurs). -/
def idxGo (needle hay : Line) : Nat → Nat → Option Nat
  | 0, _ => none
  | fuel + 1, i =>
    if hay.length < i then none
    else if needle.isPrefixOf (hay.drop i) then some i
    else idxGo needle hay fuel (i + 1)

/-- `hay.indexOf(needle, start)`: `-1` when the needle does not occur at or
after `start`. -/
def jsIndexOf (needle hay : Line) (start : Nat) : Int :=
  match idxGo needle hay (hay.length + 1) start with
  | some n => (n : Int)
  | none => -1

/-- The block-opening keywords, in the alternation order of the source
pattern `/\b(if|while|foreach|switch)\b/`. -/
def blockKws : List String := ["if", "while", "foreach", "switch"]

/-- First match of `/\b(if|while|foreach|switch)\b/` on `l`: scan positions
left to right, trying the alternatives in order at each position. -/
def firstBlockKw (l : Line) : Option String :=
  (List.range (l.length + 1)).findSome? fun i =>
    blockKws.find? fun kw => tokenAtIdx kw.data l i

/-- `/^\s*elseif\b/i.test(t)`. -/
def startsWithElseif (t : Line) : Bool :=
  let r := t.dropWhile isSpaceChar
  ((r.take 6).map Char.toLower == "elseif".data) && boundaryAfter (r.drop 6)

/-- `/^\s*var\s+/.test(t)`. -/
def isVarDeclStart (t : Line) : Bool :=
  let r := t.dropWhile isSpaceChar
  "var".data.isPrefixOf r && !((r.drop 3).takeWhile isSpaceChar).isEmpty

/-- `t.match(/^var\s+\w+\s*:\s*(\w+)/)`: the captured type name, when the
anchored pattern matches. -/
def parseTypeAnnot (t : Line) : Option Line :=
  if "var".data.isPrefixOf t then
    let r0 := t.drop 3
    if (r0.takeWhile isSpaceChar).isEmpty then none
    else
      let r1 := r0.dropWhile isSpaceChar
      let nm := r1.takeWhile isWordChar
      if nm.isEmpty then none
      else
        let r2 := r1.dropWhile isWordChar
        match r2.dropWhile isSpaceChar with
        | ':' :: r4 =>
          let ty := (r4.dropWhile isSpaceChar).takeWhile isWordChar
          if ty.isEmpty then none else some ty
        | _ => none
  else none

/-- Fueled worker for the global scan of `/\b([A-Z][a-zA-Z0-9]*)\s*\(/g`:
the match records (start index, captured name); scanning resumes after the
full match (name, optional spaces and the opening parenthesis). -/
def funcGo (l : Line) : Nat → Nat → List (Nat × Line)
  | 0, _ => []
  | fuel + 1, i =>
    match l.drop i with
    | [] => []
    | c :: rest =>
      if bdryBefore l i && c.isUpper then
        let tl := rest.takeWhile Char.isAlphanum
        let r2 := rest.dropWhile Char.isAlphanum
        let sp := (r2.takeWhile isSpaceChar).length
        if (r2.dropWhile isSpaceChar).head? == some '(' then
          (i, c :: tl) :: funcGo l fuel (i + 1 + tl.length + sp + 1)
        else funcGo l fuel (i + 1)
      else funcGo l fuel (i + 1)

/-- All matches of `/\b([A-Z][a-zA-Z0-9]*)\s*\(/g` on `l`. -/
def funcCallMatches (l : Line) : List (Nat × Line) := funcGo l (l.length + 1) 0

/-- Fueled worker for the global scan of
`/\bvar\s+(\w+)(?:\s*:\s*(\w+))?/g`: records (match index, name, optional
type); the optional group is greedy and, when it fails, contributes
nothing (the match then ends after the name). -/
def varGo (l : Line) : Nat → Nat → List (Nat × Line × Option Line)
  | 0, _ => []
  | fuel + 1, i =>
    match l.drop i with
    | [] => []
    | _ :: _ =>
      if bdryBefore l i && "var".data.isPrefixOf (l.drop i) then
        let r0 := l.drop (i + 3)
        let sp1 := (r0.takeWhile isSpaceChar).length
        let nm := (r0.dropWhile isSpaceChar).takeWhile isWordChar
        if sp1 == 0 || nm.isEmpty then varGo l fuel (i + 1)
        else
          let a1 := i + 3 + sp1 + nm.length
          let r2 := l.drop a1
          let sp2 := (r2.takeWhile isSpaceChar).length
          match r2.dropWhile isSpaceChar with
          | ':' :: r4 =>
            let sp3 := (r4.takeWhile isSpaceChar).length
            let ty := (r4.dropWhile isSpaceChar).takeWhile isWordChar
            if ty.isEmpty then (i, nm, none) :: varGo l fuel a1
            else (i, nm, some ty) :: varGo l fuel (a1 + sp2 + 1 + sp3 + ty.length)
          | _ => (i, nm, none) :: varGo l fuel a1
      else varGo l fuel (i + 1)

/-- All matches of `/\bvar\s+(\w+)(?:\s*:\s*(\w+))?/g` on `t`. -/
def varMatches (t : Line) : List (Nat × Line × Option Line) :=
  varGo t (t.length + 1) 0

/-- First match of `/\bforeach\s+(\w+)\s+in\b/`: the captured variable. -/
def foreachVar (t : Line) : Option Line :=
  (List.range (t.length + 1)).findSome? fun i =>
    if bdryBefore t i && "foreach".data.isPrefixOf (t.drop i) then
      let r0 := t.drop (i + 7)
      let sp1 := (r0.takeWhile isSpaceChar).length
      let nm := (r0.dropWhile isSpaceChar).takeWhile isWordChar
      if sp1 == 0 || nm.isEmpty then none
      else
        let r2 := (r0.dropWhile isSpaceChar).dropWhile isWordChar
        let sp2 := (r2.takeWhile isSpaceChar).length
        let r3 := r2.dropWhile isSpaceChar
        if sp2 == 0 then none
        else if "in".data.isPrefixOf r3 && boundaryAfter (r3.drop 2) then some nm
        else none
    else none

/-- Fueled worker consuming the greedy `(?:\.[a-zA-Z_]\w*)+` repetition at
absolute position `j`: the total number of characters consumed. -/
def dotSegsGo (l : Line) : Nat → Nat → Nat
  | 0, _ => 0
  | fuel + 1, j =>
    match l.drop j with
    | '.' :: d :: rest2 =>
      if d.isAlpha || d == '_' then
        let t := (rest2.takeWhile isWordChar).length
        (2 + t) + dotSegsGo l fuel (j + 2 + t)
      else 0
    | _ => 0

/-- Greedy consumption of `(?:\.[a-zA-Z_]\w*)+` at position `j` of `l`. -/
def dotSegs (l : Line) (j : Nat) : Nat := dotSegsGo l (l.length + 1) j

/-- Fueled worker for the global scan of
`/\b([a-zA-Z_]\w*(?:\.[a-zA-Z_]\w*)+)\s*=/g` (dotted assignment targets):
records (match index, full dotted path).  Backtracking never helps for this
pattern (after giving back a segment the next character is `.`, which can
match neither `\s` nor `=`), so the greedy parse is exact. -/
def propGo (l : Line) : Nat → Nat → List (Nat × Line)
  | 0, _ => []
  | fuel + 1, i =>
    match l.drop i with
    | [] => []
    | c :: rest =>
      if bdryBefore l i && (c.isAlpha || c == '_') then
        let base := 1 + (rest.takeWhile isWordChar).length
        let segs := dotSegs l (i + base)
        if segs == 0 then propGo l fuel (i + 1)
        else
          let pathLen := base + segs
          let rest2 := l.drop (i + pathLen)
          let sp := (rest2.takeWhile isSpaceChar).length
          if (rest2.dropWhile isSpaceChar).head? == some '=' then
            (i, (l.drop i).take pathLen) :: propGo l fuel (i + pathLen + sp + 1)
          else propGo l fuel (i + 1)
      else propGo l fuel (i + 1)

/-- All matches of `/\b([a-zA-Z_]\w*(?:\.[a-zA-Z_]\w*)+)\s*=/g` on `t`. -/
def propAssignMatches (t : Line) : List (Nat × Line) := propGo t (t.length + 1) 0

/-- Fueled worker for the global scan of `/\b([a-zA-Z_]\w*)\b/g` used by the
semantic validator: records (index, token). -/
def identGo (l : Line) : Nat → Nat → List (Nat × Line)
  | 0, _ => []
  | fuel + 1, i =>
    match l.drop i with
    | [] => []
    | c :: rest =>
      if bdryBefore l i && (c.isAlpha || c == '_') then
        let tl := rest.takeWhile isWordChar
        (i, c :: tl) :: identGo l fuel (i + 1 + tl.length)
      else identGo l fuel (i + 1)

/-- All matches of `/\b([a-zA-Z_]\w*)\b/g` on `l`. -/
def identTokens (l : Line) : List (Nat × Line) := identGo l (l.length + 1) 0

/-- Split the raw text on `\n` (JavaScript `split` semantics: the empty
text yields one empty line). -/
def splitOnNl : List Char → List Line
  | [] => [[]]
  | c :: rest =>
    if c = '\n' then [] :: splitOnNl rest
    else
      match splitOnNl rest with
      | l :: ls => (c :: l) :: ls
      | [] => [[c]]

/-- `replace(/\r$/, '')`: drop a single trailing carriage return. -/
def stripCR (l : Line) : Line := if l.getLast? = some '\r' then l.dropLast else l

/-- The line normalizer: `text.split('\n').map(line => line.replace(/\r$/, ''))`. -/
def toLines (text : String) : List Line := (splitOnNl text.data).map stripCR

/-! ## Data model of the analyzer -/

/-- Mirror of the language-server diagnostic severities used by the source. -/
inductive DiagnosticSeverity
  | Error
  | Warning
  | Information
deriving DecidableEq

/-- A positioned diagnostic.  The range always lies on a single line in the
source's usage; characters are `Int` because they come from JavaScript
`indexOf`, which can be `-1`. -/
structure Diagnostic where
  severity : DiagnosticSeverity
  startLine : Nat
  startChar : Int
  endLine : Nat
  endChar : Int
  message : String
  source : String
deriving DecidableEq

/-- Mirror of `SymbolInfo`. -/
structure SymbolInfo where
  name : String
  type : Option String
  line : Nat
  character : Int
deriving DecidableEq

/-- Mirror of `AnalyzerOptions`. -/
structure AnalyzerOptions where
  warnOnHostFunctions : Bool
deriving DecidableEq

/-- Mirror of `addDiagnostic`: the source tag is the fixed literal "jyro". -/
def addDiagnostic (sl : Nat) (sc : Int) (el : Nat) (ec : Int)
    (msg : String) (sev : DiagnosticSeverity) : Diagnostic :=
  { severity := sev, startLine := sl, startChar := sc, endLine := el, endChar := ec,
    message := msg, source := "jyro" }

/-- The reserved keywords of the language, as listed in the source. -/
def keywords : List String :=
  ["var", "if", "then", "else", "elseif", "end", "switch", "do", "case", "default",
   "while", "foreach", "in", "return", "fail", "break", "continue",
   "true", "false", "null", "and", "or", "not", "is", "Data"]

/-- The whitelist of declared type names. -/
def typeKeywords : List String := ["number", "string", "boolean", "object", "array"]

/-- `getAllFunctionNames()`: the canonical names of the 57 standard-library
functions, in registry order (from `STDLIB_FUNCTIONS` in `stdlib.ts`). -/
def functionNames : List String :=
  ["Upper", "Lower", "Trim", "Replace", "Contains", "StartsWith", "EndsWith",
   "Split", "Join", "ToNumber", "RandomString", "Length", "First", "Last",
   "Append", "Pop", "IndexOf", "Insert", "RemoveAt", "RemoveLast", "Clear",
   "Filter", "CountIf", "Sort", "SortByField", "Reverse", "MergeArrays",
   "Take", "GroupBy", "RandomChoice", "Min", "Max", "Sum", "Average",
   "Median", "Mode", "Abs", "Round", "RandomInt", "Now", "Today",
   "ParseDate", "FormatDate", "DateAdd", "DateDiff", "DatePart", "TypeOf",
   "IsNull", "Exists", "Equal", "NotEqual", "Base64Encode", "Base64Decode",
   "NewGuid", "CallScript", "Keys", "InvokeRestMethod"]

/-! ## Diagnostic messages -/

/-- Message of the unclosed-string-literal diagnostic. -/
def msgUnclosedStr : String := "Unclosed string literal"

/-- Message of the unmatched-`end` diagnostic. -/
def msgUnexpectedEnd : String := "Unexpected \"end\" without matching block start"

/-- Message of the loop-control-outside-loop diagnostic. -/
def msgCtl (kw : String) : String := "\"" ++ kw ++ "\" can only be used inside loops"

/-- Message of the invalid-declared-type diagnostic. -/
def msgBadType (ty : String) : String :=
  "Unknown type \"" ++ ty ++ "\". Expected: number, string, boolean, object, or array"

/-- Message of the unresolved-call-reference Information diagnostic. -/
def msgHostFn (nm : String) : String :=
  "Referenced function \"" ++ nm ++ "\" will need to be made available at runtime"

/-- Message of the undefined-variable diagnostic. -/
def msgUndefVar (nm : String) : String := "Undefined variable \"" ++ nm ++ "\""

/-- Message of the unclosed-block diagnostic. -/
def msgUnclosedBlock (ty : String) : String :=
  "Unclosed \"" ++ ty ++ "\" block - missing \"end\""

/-! ## Syntax checker -/

/-- A block-stack entry `{ type, line }`.  The TypeScript array grows at the
end; we keep the top of the stack at the head of the list. -/
structure BlockEntry where
  type : String
  line : Nat
deriving DecidableEq

/-- Is the skip guard of the per-line loop taken
(`trimmed.startsWith('#') || trimmed.length === 0`)? -/
def lineSkipped (trimmed : Line) : Bool :=
  trimmed.head? == some '#' || trimmed.isEmpty

/-- The comment-stripped, string-replaced copy used for keyword detection
(`trimmedWithoutStrings`). -/
def strippedOf (trimmed : Line) : Line := stripStrings (stripComment trimmed)

/-- Is the keyword one of the two loop openers? -/
def isLoopKw (k : String) : Bool := k == "while" || k == "foreach"

/-- Diagnostics of the unclosed-string check for one line. -/
def quoteDiags (i : Nat) (line : Line) : List Diagnostic :=
  if countQuotes line % 2 != 0 then
    [addDiagnostic i 0 i line.length msgUnclosedStr .Error]
  else []

/-- Block-stack push for one line: a block keyword (unless the line is an
`elseif` continuation) pushes one entry and bumps the loop counter for
`while`/`foreach`. -/
def blockPush (i : Nat) (trimmed stripped : Line)
    (stack : List BlockEntry) (inLoop : Int) : List BlockEntry × Int :=
  if !startsWithElseif trimmed then
    match firstBlockKw stripped with
    | some kw =>
      (⟨kw, i⟩ :: stack, if isLoopKw kw then inLoop + 1 else inLoop)
    | none => (stack, inLoop)
  else (stack, inLoop)

/-- `end` handling for one line: with an empty stack it reports an error;
otherwise it pops (the non-null assertion is safe because the empty case
was just excluded) and decrements the loop counter for loop blocks. -/
def endStep (i : Nat) (trimmed stripped : Line)
    (stack : List BlockEntry) (inLoop : Int) :
    List BlockEntry × Int × List Diagnostic :=
  if hasToken "end" stripped then
    match stack with
    | [] =>
      (stack, inLoop, [addDiagnostic i 0 i trimmed.length msgUnexpectedEnd .Error])
    | b :: rest =>
      (rest, if isLoopKw b.type then inLoop - 1 else inLoop, [])
  else (stack, inLoop, [])

/-- The keyword named by the loop-control diagnostic:
`trimmedWithoutStrings.includes('break') ? 'break' : 'continue'`. -/
def ctlKw (stripped : Line) : String :=
  if jsIncludes "break".data stripped then "break" else "continue"

/-- Diagnostics of the break/continue-outside-loop check for one line
(`inLoop` is the counter value after this line's push and `end` handling). -/
def ctlDiags (i : Nat) (trimmed stripped : Line) (inLoop : Int) : List Diagnostic :=
  if (hasToken "break" stripped || hasToken "continue" stripped) && inLoop == 0 then
    [addDiagnostic i 0 i trimmed.length (msgCtl (ctlKw stripped)) .Error]
  else []

/-- Diagnostics of the invalid-type-annotation check for one line.  The
reported position is `line.indexOf(type)` on the raw line. -/
def typeDiags (i : Nat) (line trimmed : Line) : List Diagnostic :=
  if isVarDeclStart trimmed then
    match parseTypeAnnot trimmed with
    | some ty =>
      if typeKeywords.contains (String.mk ty) then []
      else
        let pos := jsIndexOf ty line 0
        [addDiagnostic i pos i (pos + ty.length) (msgBadType (String.mk ty)) .Error]
    | none => []
  else []

/-- Diagnostics of the unresolved-call-reference check for one line, gated
by `warnOnHostFunctions`.  The position is the leading-whitespace count of
the raw line plus the match index in the stripped copy. -/
def funcDiags (opts : AnalyzerOptions) (i : Nat) (line stripped : Line) :
    List Diagnostic :=
  if opts.warnOnHostFunctions then
    (funcCallMatches stripped).filterMap fun m =>
      let nm := String.mk m.2
      if keywords.contains nm then none
      else if functionNames.contains nm then none
      else
        let pos : Int := (leadingWs line : Int) + (m.1 : Int)
        some (addDiagnostic i pos i (pos + m.2.length) (msgHostFn nm) .Information)
  else []

/-- All diagnostics contributed by one line of the syntax checker, given
the block stack and loop counter before the line, in emission order. -/
def lineDiags (opts : AnalyzerOptions) (i : Nat) (line : Line)
    (stack : List BlockEntry) (inLoop : Int) : List Diagnostic :=
  let trimmed := jsTrim line
  if lineSkipped trimmed then []
  else
    let stripped := strippedOf trimmed
    let pr := blockPush i trimmed stripped stack inLoop
    let er := endStep i trimmed stripped pr.1 pr.2
    quoteDiags i line ++ er.2.2 ++ ctlDiags i trimmed stripped er.2.1 ++
      typeDiags i line trimmed ++ funcDiags opts i line stripped

/-- The (stack, loop counter) after processing one line. -/
def stepState (i : Nat) (line : Line) (s : List BlockEntry × Int) :
    List BlockEntry × Int :=
  let trimmed := jsTrim line
  if lineSkipped trimmed then s
  else
    let stripped := strippedOf trimmed
    let pr := blockPush i trimmed stripped s.1 s.2
    let er := endStep i trimmed stripped pr.1 pr.2
    (er.1, er.2.1)

/-- The (stack, loop counter) after processing a list of indexed lines. -/
def runState : List (Nat × Line) → List BlockEntry × Int → List BlockEntry × Int
  | [], s => s
  | p :: rest, s => runState rest (stepState p.1 p.2 s)

/-- The diagnostics appended while processing a list of indexed lines. -/
def newDiags (opts : AnalyzerOptions) :
    List (Nat × Line) → List BlockEntry × Int → List Diagnostic
  | [], _ => []
  | p :: rest, s =>
    lineDiags opts p.1 p.2 s.1 s.2 ++ newDiags opts rest (stepState p.1 p.2 s)

/-- Pair each line with its zero-based index (the `forEach` index). -/
def zipIdx : Nat → List Line → List (Nat × Line)
  | _, [] => []
  | i, l :: ls => (i, l) :: zipIdx (i + 1) ls

/-- `checkSyntax()`: per-line scan, then the end-of-document unclosed-block
report for the innermost (top-of-stack) residual entry.  `none` models the
only possible runtime fault, an out-of-range index into `this.lines` (we
prove it never happens). -/
def checkSyntax? (opts : AnalyzerOptions) (lines : List Line) :
    Option (List Diagnostic) :=
  let ps := zipIdx 0 lines
  let ds := newDiags opts ps ([], 0)
  match runState ps ([], 0) with
  | ([], _) => some ds
  | (top :: _, _) =>
    match lines[top.line]? with
    | some l =>
      some (ds ++ [addDiagnostic top.line 0 top.line l.length
                    (msgUnclosedBlock top.type) .Error])
    | none => none

/-! ## Symbol extractor -/

/-- Symbols contributed by the `var` declarations of one line.  The position
is `line.indexOf(varName, varMatch.index)`: the search is over the raw line
but starts from the match index in the trimmed line. -/
def varSymsOf (i : Nat) (line trimmed : Line) : List SymbolInfo :=
  (varMatches trimmed).map fun m =>
    { name := String.mk m.2.1, type := m.2.2.map String.mk, line := i,
      character := jsIndexOf m.2.1 line m.1 }

/-- Symbols contributed by a `foreach` iteration binding on one line. -/
def foreachSymsOf (i : Nat) (line trimmed : Line) : List SymbolInfo :=
  match foreachVar trimmed with
  | some nm =>
    [{ name := String.mk nm, type := some "iterator", line := i,
       character := jsIndexOf nm line 0 }]
  | none => []

/-- Fold over the dotted-assignment matches of one line: a path contributes
a `property` symbol only the first time it is seen across the document. -/
def propFold (i : Nat) (line : Line) :
    List (Nat × Line) → List SymbolInfo × List String → List SymbolInfo × List String
  | [], acc => acc
  | m :: rest, acc =>
    let pathS := String.mk m.2
    if acc.2.contains pathS then propFold i line rest acc
    else
      propFold i line rest
        (acc.1 ++ [{ name := pathS, type := some "property", line := i,
                     character := jsIndexOf m.2 line 0 }],
         acc.2 ++ [pathS])

/-- Symbol extraction for one line; `acc` carries the symbol table and the
`seenProps` set (modelled as the list of paths added so far). -/
def extractLine (i : Nat) (line : Line) (acc : List SymbolInfo × List String) :
    List SymbolInfo × List String :=
  let trimmed := jsTrim line
  if lineSkipped trimmed then acc
  else
    propFold i line (propAssignMatches trimmed)
      (acc.1 ++ varSymsOf i line trimmed ++ foreachSymsOf i line trimmed, acc.2)

/-- Symbol extraction over a list of indexed lines. -/
def extractAll : List (Nat × Line) → List SymbolInfo × List String →
    List SymbolInfo × List String
  | [], acc => acc
  | p :: rest, acc => extractAll rest (extractLine p.1 p.2 acc)

/-- `extractSymbols()`. -/
def extractSymbols (lines : List Line) : List SymbolInfo :=
  (extractAll (zipIdx 0 lines) ([], [])).1

/-! ## Semantic validator -/

/-- Diagnostics of the semantic validator for one line.  The scan runs over
the raw line with string contents replaced and then comments removed (in
that order), and skips property accesses, call positions, keywords, type
keywords, registry names (case-insensitively) and declared names. -/
def validLine (declared : List String) (i : Nat) (line : Line) : List Diagnostic :=
  let trimmed := jsTrim line
  if lineSkipped trimmed then []
  else
    let lineNC := stripComment (stripStrings line)
    (identTokens lineNC).filterMap fun t =>
      let nmS := String.mk t.2
      if decide (0 < t.1) && (lineNC[t.1 - 1]? == some '.') then none
      else if ((lineNC.drop (t.1 + t.2.length)).dropWhile isSpaceChar).head? == some '(' then
        none
      else if keywords.contains nmS || typeKeywords.contains nmS
          || functionNames.any (fun f => lowerStr f == lowerStr nmS) then none
      else if declared.contains nmS then none
      else
        some (addDiagnostic i t.1 i ((t.1 : Int) + t.2.length) (msgUndefVar nmS) .Warning)

/-- Semantic validation over a list of indexed lines. -/
def validateAll (declared : List String) : List (Nat × Line) → List Diagnostic
  | [] => []
  | p :: rest => validLine declared p.1 p.2 ++ validateAll declared rest

/-- The declared-identifier set: every extracted symbol name plus the
always-available `Data` root. -/
def declaredOf (syms : List SymbolInfo) : List String :=
  syms.map (fun s => s.name) ++ ["Data"]

/-! ## The analyzer -/

/-- `analyze()` on normalized lines: syntax check, then symbol extraction,
then semantic validation, diagnostics concatenated in emission order. -/
def analyzeLines? (opts : AnalyzerOptions) (lines : List Line) :
    Option (List Diagnostic) :=
  match checkSyntax? opts lines with
  | none => none
  | some syn =>
    some (syn ++ validateAll (declaredOf (extractSymbols lines)) (zipIdx 0 lines))

/-- `analyze()` on the raw text. -/
def analyze? (text : String) (opts : AnalyzerOptions) : Option (List Diagnostic) :=
  analyzeLines? opts (toLines text)

/-- The diagnostic list of `analyze()` (we prove `analyze?` never fails). -/
def analyze (text : String) (opts : AnalyzerOptions) : List Diagnostic :=
  (analyze? text opts).getD []

/-- `getSymbols()` on a fresh analyzer instance. -/
def getSymbols (text : String) : List SymbolInfo := extractSymbols (toLines text)

/-! ## Specification-side helpers (classifiers and state observers used to
state the claims) -/

/-- `n` occurs as a contiguous segment of `h`. -/
def occursIn (n h : Line) : Prop := ∃ s t, h = s ++ n ++ t

/-- Is this an unclosed-block diagnostic?  Its message — and only its
message among all messages the analyzer produces — starts with
`Unclosed "`. -/
def isUnclosedBlockDiag (d : Diagnostic) : Bool :=
  "Unclosed \"".data.isPrefixOf d.message.data

/-- Is this a loop-control-outside-loop diagnostic?  Only such diagnostics
carry one of the two fixed loop-control messages. -/
def isLoopCtlDiag (d : Diagnostic) : Bool :=
  d.message == msgCtl "break" || d.message == msgCtl "continue"

/-- The loop-depth counter value at the moment the break/continue check of
line `i` runs: the counter after folding the preceding lines and applying
this line's own block push and `end` handling. -/
def ctlDepth (lines : List Line) (i : Nat) (line : Line) : Int :=
  let s0 := runState (zipIdx 0 (lines.take i)) ([], 0)
  let trimmed := jsTrim line
  let stripped := strippedOf trimmed
  let pr := blockPush i trimmed stripped s0.1 s0.2
  (endStep i trimmed stripped pr.1 pr.2).2.1

/-- The names of the extracted symbols whose name is a dotted path — these
are exactly the symbols contributed by the dotted-assignment rule. -/
def dottedSyms (syms : List SymbolInfo) : List SymbolInfo :=
  syms.filter fun s => s.name.data.contains '.'

/-- The dotted assignment paths matched on one line, in match order (empty
for skipped lines). -/
def pathNames (line : Line) : List String :=
  if lineSkipped (jsTrim line) then []
  else (propAssignMatches (jsTrim line)).map fun m => String.mk m.2

/-! ## Concrete end-to-end facts -/

/-- C1: on the input `"var x = 5\nif x > 3 then\n  y = 10\nend"`, the symbol
table contains the symbol `x` contributed by the `var` declaration (no type
annotation, line 0, column 4), and `analyze()` emits exactly one diagnostic:
an Undefined-variable Warning for the token `y` on the third line (columns
2–3), since `y` is neither `var`-declared nor a dotted property path. -/
theorem claim_C1 :
    (⟨"x", none, 0, 4⟩ : SymbolInfo) ∈
        getSymbols "var x = 5\nif x > 3 then\n  y = 10\nend" ∧
    analyze "var x = 5\nif x > 3 then\n  y = 10\nend" ⟨true⟩ =
      [addDiagnostic 2 2 2 3 (msgUndefVar "y") .Warning] := by
  constructor
  · decide
  · decide

/-- C8: `var age: number` produces no diagnostic at all, and `var age: int`
produces exactly one Error-severity diagnostic, at the annotation's text
position (columns 9–12), whose message names "int" and enumerates the five
valid type names. -/
theorem claim_C8 :
    analyze "var age: number" ⟨true⟩ = [] ∧
    (analyze "var age: int" ⟨true⟩).filter (fun d => d.severity == .Error) =
      [addDiagnostic 0 9 0 12 (msgBadType "int") .Error] := by
  constructor
  · decide
  · decide

/-- Counterexample to C2: on the line `"hello" Foo()`, the unresolved-call
Information diagnostic is reported at columns 3–6, which is the index of
`Foo` in the comment-stripped, string-replaced copy `"" Foo()` — in the raw
line those columns hold `llo` (inside the string literal), while `Foo`
actually starts at raw column 8. -/
theorem claim_C2_counterexample :
    analyze "\"hello\" Foo()" ⟨true⟩ =
      [addDiagnostic 0 3 0 6 (msgHostFn "Foo") .Information] ∧
    funcCallMatches (strippedOf (jsTrim "\"hello\" Foo()".data)) = [(3, "Foo".data)] ∧
    ("\"hello\" Foo()".data.drop 3).take 3 = "llo".data ∧
    jsIndexOf "Foo".data "\"hello\" Foo()".data 0 = 8 := by
  refine ⟨by decide, by decide, by decide, by decide⟩

/-- Counterexample to C3: the line `# "` has an odd number of double quotes
but is skipped by the per-line guard (its trimmed form starts with `#`), so
`analyze()` emits no diagnostic at all — contradicting "regardless of any
other content on the line". -/
theorem claim_C3_counterexample :
    toLines "# \"" = ["# \"".data] ∧
    countQuotes "# \"".data % 2 = 1 ∧
    analyze "# \"" ⟨true⟩ = [] := by
  refine ⟨by decide, by decide, by decide⟩

/-- Counterexample to C4: the document `while true\nif true` leaves an
unclosed `while` block (both entries remain on the block stack), yet the
single unclosed-block Error names "if" and is anchored at the `if` line,
because only the innermost (top-of-stack) entry is reported. -/
theorem claim_C4_counterexample :
    (runState (zipIdx 0 (toLines "while true\nif true")) ([], 0)).1 =
      [⟨"if", 1⟩, ⟨"while", 0⟩] ∧
    analyze "while true\nif true" ⟨true⟩ =
      [addDiagnostic 1 0 1 7 (msgUnclosedBlock "if") .Error] := by
  refine ⟨by decide, by decide⟩

/-- Counterexample to C5: on the line `break continue` at loop depth 0 the
`continue` keyword occurs (with word boundaries), yet the only diagnostic
emitted names "break", because the reported keyword is chosen by a substring
test for `break` on the stripped line. -/
theorem claim_C5_counterexample :
    hasToken "continue" (strippedOf (jsTrim "break continue".data)) = true ∧
    analyze "break continue" ⟨true⟩ =
      [addDiagnostic 0 0 0 14 (msgCtl "break") .Error] := by
  refine ⟨by decide, by decide⟩

/-- Counterexample to C6: `Data()` is a PascalCase call to a name absent
from the Function Registry, yet with `warnOnHostFunctions: true` it yields
no diagnostic, because `Data` is a reserved keyword and keyword matches are
skipped before the registry lookup. -/
theorem claim_C6_counterexample :
    funcCallMatches (strippedOf (jsTrim "Data()".data)) = [(0, "Data".data)] ∧
    functionNames.contains "Data" = false ∧
    analyze "Data()" ⟨true⟩ = [] := by
  refine ⟨by decide, by decide, by decide⟩

/-! ## Length facts for the string helpers -/

/-- `takeWhile` never lengthens a list. -/
theorem len_takeWhile_le (p : Char → Bool) (l : Line) :
    (l.takeWhile p).length ≤ l.length := by
  induction l with
  | nil => simp
  | cons a l ih =>
    simp only [List.takeWhile]
    split
    · simpa using ih
    · simp

/-- `dropWhile` never lengthens a list. -/
theorem len_dropWhile_le (p : Char → Bool) (l : Line) :
    (l.dropWhile p).length ≤ l.length := by
  induction l with
  | nil => simp
  | cons a l ih =>
    simp only [List.dropWhile]
    split
    · exact Nat.le_succ_of_le ih
    · simp

/-- Length bookkeeping: `dropWhile` drops exactly the `takeWhile` part. -/
theorem len_dropWhile_eq (p : Char → Bool) (l : Line) :
    (l.dropWhile p).length = l.length - (l.takeWhile p).length := by
  have h := congrArg List.length (List.takeWhile_append_dropWhile p l)
  simp only [List.length_append] at h
  omega

/-- The trimmed line is never longer than the raw line. -/
theorem jsTrim_len_le (l : Line) : (jsTrim l).length ≤ l.length := by
  unfold jsTrim
  calc ((l.dropWhile isSpaceChar).reverse.dropWhile isSpaceChar).reverse.length
      = ((l.dropWhile isSpaceChar).reverse.dropWhile isSpaceChar).length := by simp
    _ ≤ (l.dropWhile isSpaceChar).reverse.length := len_dropWhile_le _ _
    _ = (l.dropWhile isSpaceChar).length := by simp
    _ ≤ l.length := len_dropWhile_le _ _

/-- The leading-whitespace count plus the trimmed length fits in the line. -/
theorem leadingWs_add_trim_le (l : Line) :
    leadingWs l + (jsTrim l).length ≤ l.length := by
  unfold leadingWs jsTrim
  have h1 : (l.dropWhile isSpaceChar).length ≤ l.length := len_dropWhile_le _ _
  have h2 : ((l.dropWhile isSpaceChar).reverse.dropWhile isSpaceChar).reverse.length
      ≤ (l.dropWhile isSpaceChar).length := by
    calc ((l.dropWhile isSpaceChar).reverse.dropWhile isSpaceChar).reverse.length
        = ((l.dropWhile isSpaceChar).reverse.dropWhile isSpaceChar).length := by simp
      _ ≤ (l.dropWhile isSpaceChar).reverse.length := len_dropWhile_le _ _
      _ = (l.dropWhile isSpaceChar).length := by simp
  omega

/-- Removing a comment never lengthens a line. -/
theorem stripComment_len_le (l : Line) : (stripComment l).length ≤ l.length :=
  len_takeWhile_le _ l

/-- Replacing string literals by `""` never lengthens a line. -/
theorem stripStringsGo_len_le (fuel : Nat) (l : Line) :
    (stripStringsGo fuel l).length ≤ l.length := by
  induction fuel generalizing l with
  | zero => simp [stripStringsGo]
  | succ fuel ih =>
    match l with
    | [] => simp [stripStringsGo]
    | c :: rest =>
      simp only [stripStringsGo]
      split
      · match heq : rest.dropWhile (fun d => d != '"') with
        | [] => simp [heq]
        | c2 :: after =>
          simp only [heq]
          have hlen : (rest.dropWhile (fun d => d != '"')).length ≤ rest.length :=
            len_dropWhile_le _ _
          rw [heq] at hlen
          have := ih after
          simp only [List.length_cons] at hlen ⊢
          omega
      · have := ih rest
        simp only [List.length_cons]
        omega

/-- Replacing string literals by `""` never lengthens a line. -/
theorem stripStrings_len_le (l : Line) : (stripStrings l).length ≤ l.length :=
  stripStringsGo_len_le _ l

/-- The stripped copy is never longer than the trimmed line. -/
theorem strippedOf_len_le (t : Line) : (strippedOf t).length ≤ t.length :=
  le_trans (stripStrings_len_le _) (stripComment_len_le t)

/-! ## Occurrence facts and `jsIndexOf` -/

/-- `isPrefixOf` is existence of a completing tail. -/
theorem isPre_exists {a b : Line} : a.isPrefixOf b = true ↔ ∃ t, b = a ++ t := by
  induction a generalizing b with
  | nil => simp [List.isPrefixOf]
  | cons x a ih =>
    cases b with
    | nil => simp [List.isPrefixOf]
    | cons y b =>
      simp only [List.isPrefixOf, Bool.and_eq_true, beq_iff_eq, ih, List.cons_append,
        List.cons.injEq]
      constructor
      · rintro ⟨rfl, t, rfl⟩
        exact ⟨t, rfl, rfl⟩
      · rintro ⟨t, rfl, rfl⟩
        exact ⟨rfl, t, rfl⟩

/-- Occurrence is transitive along nesting. -/
theorem occursIn_trans {a b c : Line} (h1 : occursIn a b) (h2 : occursIn b c) :
    occursIn a c := by
  obtain ⟨s1, t1, rfl⟩ := h1
  obtain ⟨s2, t2, rfl⟩ := h2
  exact ⟨s2 ++ s1, t1 ++ t2, by simp⟩

/-- A `takeWhile` result occurs in its source. -/
theorem takeWhile_occursIn (p : Char → Bool) (l : Line) :
    occursIn (l.takeWhile p) l :=
  ⟨[], l.dropWhile p, by simp [List.takeWhile_append_dropWhile]⟩

/-- A `dropWhile` result occurs in its source. -/
theorem dropWhile_occursIn (p : Char → Bool) (l : Line) :
    occursIn (l.dropWhile p) l :=
  ⟨l.takeWhile p, [], by simp [List.takeWhile_append_dropWhile]⟩

/-- A `drop` result occurs in its source. -/
theorem drop_occursIn (k : Nat) (l : Line) : occursIn (l.drop k) l :=
  ⟨l.take k, [], by simp⟩

/-- The trimmed line occurs in the raw line. -/
theorem jsTrim_occursIn (l : Line) : occursIn (jsTrim l) l := by
  refine occursIn_trans (b := l.dropWhile isSpaceChar) ?_ (dropWhile_occursIn _ l)
  unfold jsTrim
  set m := l.dropWhile isSpaceChar with hm
  refine ⟨[], (m.reverse.takeWhile isSpaceChar).reverse, ?_⟩
  have h := congrArg List.reverse (List.takeWhile_append_dropWhile isSpaceChar m.reverse)
  simp only [List.reverse_append, List.reverse_reverse] at h
  rw [List.nil_append]
  exact h.symm

/-- The type name captured by `parseTypeAnnot` is nonempty and occurs in the
scanned line. -/
theorem parseTypeAnnot_occursIn {t ty : Line} (h : parseTypeAnnot t = some ty) :
    ty ≠ [] ∧ occursIn ty t := by
  unfold parseTypeAnnot at h
  split at h
  · simp only at h
    split at h
    · exact absurd h (by simp)
    · split at h
      · exact absurd h (by simp)
      · split at h
        · next r4 heq =>
          split at h
          · exact absurd h (by simp)
          · next hne =>
            obtain rfl : ((r4.dropWhile isSpaceChar).takeWhile isWordChar) = ty := by
              simpa using h
            refine ⟨by simpa using hne, ?_⟩
            refine occursIn_trans (takeWhile_occursIn _ _) ?_
            refine occursIn_trans (dropWhile_occursIn _ _) ?_
            have h4 : occursIn r4
                (((t.drop 3).dropWhile isSpaceChar).dropWhile isWordChar) := by
              refine occursIn_trans (b := ':' :: r4) ⟨[':'], [], by simp⟩ ?_
              rw [← heq]
              exact dropWhile_occursIn _ _
            refine occursIn_trans h4 ?_
            refine occursIn_trans (dropWhile_occursIn _ _) ?_
            refine occursIn_trans (dropWhile_occursIn _ _) ?_
            exact drop_occursIn 3 t
        · exact absurd h (by simp)
  · exact absurd h (by simp)

/-- A successful `idxGo` returns an in-range position carrying a prefix
match. -/
theorem idxGo_some {needle hay : Line} {fuel i k : Nat}
    (h : idxGo needle hay fuel i = some k) :
    i ≤ k ∧ k ≤ hay.length ∧ needle.isPrefixOf (hay.drop k) = true := by
  induction fuel generalizing i with
  | zero => simp [idxGo] at h
  | succ fuel ih =>
    simp only [idxGo] at h
    split at h
    · simp at h
    · split at h
      · obtain rfl : i = k := by simpa using h
        refine ⟨le_refl _, by omega, by assumption⟩
      · have h2 := ih h
        exact ⟨by omega, h2.2⟩

/-- `idxGo` finds a match that exists at or after the start position, given
enough fuel. -/
theorem idxGo_isSome {needle hay : Line} {fuel i k : Nat}
    (hfuel : hay.length + 1 ≤ fuel + i) (hik : i ≤ k) (hk : k ≤ hay.length)
    (hpre : needle.isPrefixOf (hay.drop k) = true) :
    (idxGo needle hay fuel i).isSome = true := by
  induction fuel generalizing i with
  | zero => omega
  | succ fuel ih =>
    simp only [idxGo]
    split
    · omega
    · split
      · simp
      · next hno =>
        have hik2 : i + 1 ≤ k := by
          rcases Nat.lt_or_ge i k with hlt | hge
          · omega
          · exact absurd hpre (by
              have : i = k := by omega
              subst this
              simp [hno])
        exact ih (by omega) hik2

/-- For a nonempty needle occurring in the haystack, `indexOf` from 0
returns a position with the whole needle in range. -/
theorem jsIndexOf_spec {needle hay : Line} (hne : needle ≠ [])
    (hocc : occursIn needle hay) :
    0 ≤ jsIndexOf needle hay 0 ∧
      jsIndexOf needle hay 0 + needle.length ≤ hay.length := by
  obtain ⟨s, t, rfl⟩ := hocc
  have hpre : needle.isPrefixOf ((s ++ needle ++ t).drop s.length) = true := by
    rw [List.append_assoc, List.drop_left]
    exact isPre_exists.mpr ⟨t, rfl⟩
  have hk : s.length ≤ (s ++ needle ++ t).length := by simp
  have hsome := @idxGo_isSome needle (s ++ needle ++ t)
    ((s ++ needle ++ t).length + 1) 0 s.length (by omega) (Nat.zero_le _) hk hpre
  rcases hx : idxGo needle (s ++ needle ++ t) ((s ++ needle ++ t).length + 1) 0
    with - | n
  · rw [hx] at hsome
    simp at hsome
  · obtain ⟨-, hn, hp⟩ := idxGo_some hx
    obtain ⟨u, hu⟩ := isPre_exists.mp hp
    have hlen := congrArg List.length hu
    simp only [List.length_drop, List.length_append] at hlen
    unfold jsIndexOf
    rw [hx]
    refine ⟨Int.ofNat_nonneg n, ?_⟩
    simp only [List.length_append] at hn ⊢
    push_cast
    omega

/-! ## Scanner position bounds -/

/-- Every match of the PascalCase-call scanner lies at or after the start
position, and the name together with its opening parenthesis fits in the
scanned line. -/
theorem funcGo_mem_bound {l : Line} {fuel i : Nat} {m : Nat × Line}
    (h : m ∈ funcGo l fuel i) :
    i ≤ m.1 ∧ m.1 + m.2.length + 1 ≤ l.length := by
  induction fuel generalizing i with
  | zero => simp [funcGo] at h
  | succ fuel ih =>
    rw [funcGo] at h
    split at h
    · simp at h
    · next c rest hd =>
      have hlen : l.length - i = rest.length + 1 := by
        have := congrArg List.length hd
        simpa [List.length_drop] using this
      have hil : i < l.length := by omega
      split at h
      · dsimp only at h
        split at h
        · next hcond =>
          rcases List.mem_cons.mp h with heq | htail
          · subst heq
            have h1 : (rest.takeWhile Char.isAlphanum).length
                + (rest.dropWhile Char.isAlphanum).length = rest.length := by
              have ha := len_dropWhile_eq Char.isAlphanum rest
              have hb := len_takeWhile_le Char.isAlphanum rest
              omega
            have h2 : ((rest.dropWhile Char.isAlphanum).takeWhile isSpaceChar).length
                + ((rest.dropWhile Char.isAlphanum).dropWhile isSpaceChar).length
                = (rest.dropWhile Char.isAlphanum).length := by
              have ha := len_dropWhile_eq isSpaceChar (rest.dropWhile Char.isAlphanum)
              have hb := len_takeWhile_le isSpaceChar (rest.dropWhile Char.isAlphanum)
              omega
            have h3 : 1 ≤ ((rest.dropWhile Char.isAlphanum).dropWhile isSpaceChar).length := by
              rcases hdw : (rest.dropWhile Char.isAlphanum).dropWhile isSpaceChar
                with - | ⟨x, xs⟩
              · rw [hdw] at hcond
                simp at hcond
              · simp
            simp only [List.length_cons]
            omega
          · have h2 := ih htail
            omega
        · have h2 := ih h
          omega
      · have h2 := ih h
        omega

/-- Every identifier token found by the semantic validator's scanner fits
in the scanned line. -/
theorem identGo_mem_bound {l : Line} {fuel i : Nat} {m : Nat × Line}
    (h : m ∈ identGo l fuel i) :
    i ≤ m.1 ∧ m.1 + m.2.length ≤ l.length := by
  induction fuel generalizing i with
  | zero => simp [identGo] at h
  | succ fuel ih =>
    rw [identGo] at h
    split at h
    · simp at h
    · next c rest hd =>
      have hlen : l.length - i = rest.length + 1 := by
        have h0 := congrArg List.length hd
        simpa [List.length_drop] using h0
      have hil : i < l.length := by omega
      split at h
      · dsimp only at h
        rcases List.mem_cons.mp h with heq | htail
        · subst heq
          have hb := len_takeWhile_le isWordChar rest
          simp only [List.length_cons]
          omega
        · have h2 := ih htail
          omega
      · have h2 := ih h
        omega

/-! ## Per-line diagnostic characterization -/

/-- Everything the later proofs need to know about one member of
`lineDiags`: it sits on line `i` with an in-bounds single-line range, the
`jyro` source tag, and its message and severity belong to one of the five
per-line diagnostic families (with the family side conditions). -/
theorem lineDiags_mem {opts : AnalyzerOptions} {i : Nat} {line : Line}
    {stack : List BlockEntry} {inLoop : Int} {d : Diagnostic}
    (h : d ∈ lineDiags opts i line stack inLoop) :
    d.startLine = i ∧ d.endLine = i ∧ d.source = "jyro" ∧
    0 ≤ d.startChar ∧ d.startChar ≤ d.endChar ∧ d.endChar ≤ line.length ∧
    (d.message = msgUnclosedStr ∧ d.severity = .Error ∨
     d.message = msgUnexpectedEnd ∧ d.severity = .Error ∨
     (∃ kw, (kw = "break" ∨ kw = "continue") ∧ d.message = msgCtl kw ∧
       d.severity = .Error) ∨
     (∃ ty : Line, d.message = msgBadType (String.mk ty) ∧ d.severity = .Error) ∨
     (∃ nm : Line, d.message = msgHostFn (String.mk nm) ∧
       d.severity = .Information ∧ opts.warnOnHostFunctions = true ∧
       String.mk nm ∉ keywords ∧ String.mk nm ∉ functionNames)) := by
  unfold lineDiags at h
  dsimp only at h
  split at h
  · simp at h
  · simp only [List.mem_append] at h
    have htr := jsTrim_len_le line
    rcases h with ((((hq | he) | hc) | ht) | hf)
    · -- unclosed string literal
      unfold quoteDiags at hq
      split at hq
      · simp only [List.mem_singleton] at hq
        subst hq
        dsimp only [addDiagnostic]
        refine ⟨rfl, rfl, rfl, le_refl _, by exact_mod_cast Nat.zero_le _, le_refl _, ?_⟩
        exact Or.inl ⟨rfl, rfl⟩
      · simp at hq
    · -- unexpected end
      unfold endStep at he
      split at he
      · split at he
        · simp only [List.mem_singleton] at he
          subst he
          dsimp only [addDiagnostic]
          refine ⟨rfl, rfl, rfl, le_refl _, by exact_mod_cast Nat.zero_le _, ?_, ?_⟩
          · exact_mod_cast htr
          · exact Or.inr (Or.inl ⟨rfl, rfl⟩)
        · simp at he
      · simp at he
    · -- break/continue
      unfold ctlDiags at hc
      split at hc
      · simp only [List.mem_singleton] at hc
        subst hc
        dsimp only [addDiagnostic]
        refine ⟨rfl, rfl, rfl, le_refl _, by exact_mod_cast Nat.zero_le _, ?_, ?_⟩
        · exact_mod_cast htr
        · refine Or.inr (Or.inr (Or.inl ⟨ctlKw (strippedOf (jsTrim line)), ?_, rfl, rfl⟩))
          unfold ctlKw
          split
          · exact Or.inl rfl
          · exact Or.inr rfl
      · simp at hc
    · -- invalid declared type
      unfold typeDiags at ht
      split at ht
      · split at ht
        · next ty hty =>
          split at ht
          · simp at ht
          · simp only [List.mem_singleton] at ht
            subst ht
            dsimp only [addDiagnostic]
            obtain ⟨hne, hocc⟩ := parseTypeAnnot_occursIn hty
            have hocc2 : occursIn ty line := occursIn_trans hocc (jsTrim_occursIn line)
            obtain ⟨hge, hle⟩ := jsIndexOf_spec hne hocc2
            refine ⟨rfl, rfl, rfl, hge, ?_, ?_, ?_⟩
            · have : (0 : Int) ≤ (ty.length : Int) := by exact_mod_cast Nat.zero_le _
              omega
            · exact hle
            · exact Or.inr (Or.inr (Or.inr (Or.inl ⟨ty, rfl, rfl⟩)))
        · simp at ht
      · simp at ht
    · -- unresolved call reference
      unfold funcDiags at hf
      split at hf
      · next hwarn =>
        simp only [List.mem_filterMap] at hf
        obtain ⟨m, hm, hd⟩ := hf
        split at hd
        · simp at hd
        · next hkw =>
          split at hd
          · simp at hd
          · next hfn =>
            simp only [Option.some.injEq] at hd
            subst hd
            dsimp only [addDiagnostic]
            obtain ⟨hi, hbound⟩ := funcGo_mem_bound hm
            have hstr := strippedOf_len_le (jsTrim line)
            have hlw := leadingWs_add_trim_le line
            refine ⟨rfl, rfl, rfl, ?_, ?_, ?_, ?_⟩
            · have h0 : (0 : Int) ≤ (leadingWs line : Int) := by exact_mod_cast Nat.zero_le _
              have h1 : (0 : Int) ≤ (m.1 : Int) := by exact_mod_cast Nat.zero_le _
              omega
            · have : (0 : Int) ≤ (m.2.length : Int) := by exact_mod_cast Nat.zero_le _
              omega
            · push_cast
              omega
            · exact Or.inr (Or.inr (Or.inr (Or.inr ⟨m.2, rfl, rfl, hwarn,
                by simpa using hkw, by simpa using hfn⟩)))
      · simp at hf

/-- Everything the later proofs need about one member of `validLine`: a
Warning on line `i` with an in-bounds single-line range, `jyro` source tag
and an undefined-variable message. -/
theorem validLine_mem {declared : List String} {i : Nat} {line : Line}
    {d : Diagnostic} (h : d ∈ validLine declared i line) :
    d.startLine = i ∧ d.endLine = i ∧ d.source = "jyro" ∧
    0 ≤ d.startChar ∧ d.startChar ≤ d.endChar ∧ d.endChar ≤ line.length ∧
    d.severity = .Warning ∧ ∃ nm : Line, d.message = msgUndefVar (String.mk nm) := by
  unfold validLine at h
  dsimp only at h
  split at h
  · simp at h
  · simp only [List.mem_filterMap] at h
    obtain ⟨t, ht, hd⟩ := h
    split at hd
    · simp at hd
    · split at hd
      · simp at hd
      · split at hd
        · simp at hd
        · split at hd
          · simp at hd
          · simp only [Option.some.injEq] at hd
            subst hd
            dsimp only [addDiagnostic]
            obtain ⟨-, hbound⟩ := identGo_mem_bound ht
            have hlen : (stripComment (stripStrings line)).length ≤ line.length :=
              le_trans (stripComment_len_le _) (stripStrings_len_le _)
            refine ⟨rfl, rfl, rfl, by exact_mod_cast Nat.zero_le _, ?_, ?_, rfl, t.2, rfl⟩
            · have h0 : (0 : Int) ≤ (t.2.length : Int) := by exact_mod_cast Nat.zero_le _
              omega
            · push_cast
              omega

/-! ## Folding over the document lines -/

/-- Indices produced by `zipIdx` locate their lines. -/
theorem mem_zipIdx {ls : List Line} {j : Nat} {p : Nat × Line}
    (h : p ∈ zipIdx j ls) : j ≤ p.1 ∧ ls[p.1 - j]? = some p.2 := by
  induction ls generalizing j with
  | nil => simp [zipIdx] at h
  | cons l ls ih =>
    rcases List.mem_cons.mp h with rfl | htail
    · simp
    · obtain ⟨h1, h2⟩ := ih htail
      refine ⟨by omega, ?_⟩
      have hpos : p.1 - j = (p.1 - (j + 1)) + 1 := by omega
      rw [hpos]
      simpa using h2

/-- Conversely, every line of the list appears in `zipIdx` at its index. -/
theorem zipIdx_mem {ls : List Line} {k : Nat} {l : Line} (j : Nat)
    (h : ls[k]? = some l) : (j + k, l) ∈ zipIdx j ls := by
  induction ls generalizing j k with
  | nil => simp at h
  | cons x ls ih =>
    cases k with
    | zero =>
      simp only [List.getElem?_cons_zero, Option.some.injEq] at h
      subst h
      simp [zipIdx]
    | succ k =>
      simp only [List.getElem?_cons_succ] at h
      have h2 := ih (j + 1) h
      simp only [zipIdx, List.mem_cons]
      right
      have : j + 1 + k = j + (k + 1) := by omega
      rwa [this] at h2

/-- `zipIdx` distributes over append. -/
theorem zipIdx_append (j : Nat) (a b : List Line) :
    zipIdx j (a ++ b) = zipIdx j a ++ zipIdx (j + a.length) b := by
  induction a generalizing j with
  | nil => simp [zipIdx]
  | cons x a ih =>
    simp only [List.cons_append, zipIdx, List.length_cons, List.append_eq]
    have hidx : j + (a.length + 1) = j + 1 + a.length := by omega
    rw [hidx, ih (j + 1)]

/-- `runState` splits over appended line lists. -/
theorem runState_append (a b : List (Nat × Line)) (s : List BlockEntry × Int) :
    runState (a ++ b) s = runState b (runState a s) := by
  induction a generalizing s with
  | nil => simp [runState]
  | cons p a ih => simp [runState, ih]

/-- `newDiags` splits over appended line lists. -/
theorem newDiags_append (opts : AnalyzerOptions) (a b : List (Nat × Line))
    (s : List BlockEntry × Int) :
    newDiags opts (a ++ b) s = newDiags opts a s ++ newDiags opts b (runState a s) := by
  induction a generalizing s with
  | nil => simp [newDiags, runState]
  | cons p a ih => simp [newDiags, runState, ih]

/-- Lift a per-line property of `lineDiags` to the whole scan. -/
theorem newDiags_all {opts : AnalyzerOptions} {ps : List (Nat × Line)}
    {s : List BlockEntry × Int} {P : Diagnostic → Prop}
    (hP : ∀ p ∈ ps, ∀ st : List BlockEntry × Int,
      ∀ d ∈ lineDiags opts p.1 p.2 st.1 st.2, P d) :
    ∀ d ∈ newDiags opts ps s, P d := by
  induction ps generalizing s with
  | nil => simp [newDiags]
  | cons p ps ih =>
    intro d hd
    rcases List.mem_append.mp hd with h1 | h2
    · exact hP p (List.mem_cons_self p ps) s d h1
    · exact ih (fun q hq => hP q (List.mem_cons_of_mem p hq)) d h2

/-- A diagnostic emitted for some line regardless of the scan state occurs
in the whole scan's diagnostics. -/
theorem newDiags_mem {opts : AnalyzerOptions} {ps : List (Nat × Line)}
    {s : List BlockEntry × Int} {q : Nat × Line} {d : Diagnostic}
    (hq : q ∈ ps)
    (hd : ∀ st : List BlockEntry × Int, d ∈ lineDiags opts q.1 q.2 st.1 st.2) :
    d ∈ newDiags opts ps s := by
  induction ps generalizing s with
  | nil => simp at hq
  | cons p ps ih =>
    rcases List.mem_cons.mp hq with rfl | htail
    · exact List.mem_append.mpr (Or.inl (hd s))
    · exact List.mem_append.mpr (Or.inr (ih htail))

/-- A block push only adds entries carrying the current line index. -/
theorem blockPush_stack {i : Nat} {t st : Line} {stack : List BlockEntry}
    {inLoop : Int} {b : BlockEntry} (h : b ∈ (blockPush i t st stack inLoop).1) :
    b.line = i ∨ b ∈ stack := by
  unfold blockPush at h
  split at h
  · split at h
    · rcases List.mem_cons.mp h with rfl | hm
      · exact Or.inl rfl
      · exact Or.inr hm
    · exact Or.inr h
  · exact Or.inr h

/-- The `end` handling never adds stack entries. -/
theorem endStep_stack_sub {i : Nat} {t st : Line} {stack : List BlockEntry}
    {inLoop : Int} {b : BlockEntry} (h : b ∈ (endStep i t st stack inLoop).1) :
    b ∈ stack := by
  unfold endStep at h
  split at h
  · split at h
    · exact h
    · exact List.mem_cons_of_mem _ h
  · exact h

/-- One step of the state fold only pushes entries carrying the current
line index, and otherwise keeps (a subset of) the previous stack. -/
theorem stepState_stack {i : Nat} {line : Line} {s : List BlockEntry × Int}
    {b : BlockEntry} (h : b ∈ (stepState i line s).1) :
    b.line = i ∨ b ∈ s.1 := by
  unfold stepState at h
  dsimp only at h
  split at h
  · exact Or.inr h
  · exact blockPush_stack (endStep_stack_sub h)

/-- All residual stack entries after the scan carry in-range line indices. -/
theorem runState_stack_lt {ps : List (Nat × Line)} {s : List BlockEntry × Int}
    {n : Nat} (hps : ∀ p ∈ ps, p.1 < n) (hs : ∀ b ∈ s.1, b.line < n) :
    ∀ b ∈ (runState ps s).1, b.line < n := by
  induction ps generalizing s with
  | nil => exact hs
  | cons p ps ih =>
    refine ih (fun q hq => hps q (List.mem_cons_of_mem p hq)) ?_
    intro b hb
    rcases stepState_stack hb with heq | hmem
    · rw [heq]
      exact hps p (List.mem_cons_self p ps)
    · exact hs b hmem

/-- Lift a per-line property of `validLine` to the whole validation pass. -/
theorem validateAll_all {declared : List String} {ps : List (Nat × Line)}
    {P : Diagnostic → Prop}
    (hP : ∀ p ∈ ps, ∀ d ∈ validLine declared p.1 p.2, P d) :
    ∀ d ∈ validateAll declared ps, P d := by
  induction ps with
  | nil => simp [validateAll]
  | cons p ps ih =>
    intro d hd
    rcases List.mem_append.mp hd with h1 | h2
    · exact hP p (List.mem_cons_self p ps) d h1
    · exact ih (fun q hq => hP q (List.mem_cons_of_mem p hq)) d h2

/-- All indices of the indexed line list are in range. -/
theorem zipIdx_lt {lines : List Line} {p : Nat × Line}
    (h : p ∈ zipIdx 0 lines) : p.1 < lines.length ∧ lines[p.1]? = some p.2 := by
  obtain ⟨-, h2⟩ := mem_zipIdx h
  have h3 : lines[p.1]? = some p.2 := h2
  refine ⟨?_, h3⟩
  by_contra hge
  rw [List.getElem?_eq_none (by omega)] at h3
  exact Option.noConfusion h3

/-- When the final block stack is empty, the syntax checker returns exactly
the per-line diagnostics. -/
theorem checkSyntax?_of_nil (opts : AnalyzerOptions) {lines : List Line}
    (h : (runState (zipIdx 0 lines) ([], 0)).1 = []) :
    checkSyntax? opts lines = some (newDiags opts (zipIdx 0 lines) ([], 0)) := by
  unfold checkSyntax?
  rcases hrun : runState (zipIdx 0 lines) ([], 0) with ⟨st, c⟩
  rw [hrun] at h
  dsimp only at h ⊢
  subst h
  rw [hrun]

/-- When the final block stack is nonempty, the top entry's line is valid
and the syntax checker appends exactly one unclosed-block diagnostic for
it. -/
theorem checkSyntax?_of_cons (opts : AnalyzerOptions) {lines : List Line}
    {top : BlockEntry} {rest : List BlockEntry}
    (h : (runState (zipIdx 0 lines) ([], 0)).1 = top :: rest) :
    ∃ line, lines[top.line]? = some line ∧
      checkSyntax? opts lines =
        some (newDiags opts (zipIdx 0 lines) ([], 0) ++
          [addDiagnostic top.line 0 top.line line.length
            (msgUnclosedBlock top.type) .Error]) := by
  have hlt : top.line < lines.length := by
    refine runState_stack_lt (s := ([], 0)) (fun p hp => (zipIdx_lt hp).1)
      (fun b hb => absurd hb (List.not_mem_nil b)) top ?_
    rw [h]
    exact List.mem_cons_self top rest
  have hline : lines[top.line]? = some lines[top.line] :=
    List.getElem?_eq_getElem hlt
  refine ⟨lines[top.line], hline, ?_⟩
  unfold checkSyntax?
  rcases hrun : runState (zipIdx 0 lines) ([], 0) with ⟨st, c⟩
  rw [hrun] at h
  dsimp only at h ⊢
  subst h
  rw [hrun]
  dsimp only
  rw [hline]

/-- C9: `analyze()` always runs to completion: for every input text and
every options value the optional result is materialized — the guarded
`pop()` non-null assertion and the `this.lines[...]` index for the
unclosed-block report can never fault, and the returned diagnostic list is
the total function `analyze`. -/
theorem claim_C9 (text : String) (opts : AnalyzerOptions) :
    analyze? text opts = some (analyze text opts) := by
  have h : ∃ ds, analyze? text opts = some ds := by
    unfold analyze? analyzeLines?
    rcases hst : (runState (zipIdx 0 (toLines text)) ([], 0)).1 with - | ⟨top, rest⟩
    · rw [checkSyntax?_of_nil opts hst]
      exact ⟨_, rfl⟩
    · obtain ⟨line, -, hck⟩ := checkSyntax?_of_cons opts hst
      rw [hck]
      exact ⟨_, rfl⟩
  obtain ⟨ds, hds⟩ := h
  rw [hds]
  unfold analyze
  rw [hds]
  rfl

/-- Decomposition of `analyze` when no block remains open. -/
theorem analyze_of_nil (opts : AnalyzerOptions) {text : String}
    (h : (runState (zipIdx 0 (toLines text)) ([], 0)).1 = []) :
    analyze text opts =
      newDiags opts (zipIdx 0 (toLines text)) ([], 0) ++
        validateAll (declaredOf (extractSymbols (toLines text)))
          (zipIdx 0 (toLines text)) := by
  unfold analyze analyze? analyzeLines?
  rw [checkSyntax?_of_nil opts h]
  rfl

/-- Decomposition of `analyze` when a block remains open: the innermost
residual entry is reported once, between the per-line syntax diagnostics
and the semantic warnings. -/
theorem analyze_of_cons (opts : AnalyzerOptions) {text : String}
    {top : BlockEntry} {rest : List BlockEntry}
    (h : (runState (zipIdx 0 (toLines text)) ([], 0)).1 = top :: rest) :
    ∃ line, (toLines text)[top.line]? = some line ∧
      analyze text opts =
        newDiags opts (zipIdx 0 (toLines text)) ([], 0) ++
          [addDiagnostic top.line 0 top.line line.length
            (msgUnclosedBlock top.type) .Error] ++
          validateAll (declaredOf (extractSymbols (toLines text)))
            (zipIdx 0 (toLines text)) := by
  obtain ⟨line, hline, hck⟩ := checkSyntax?_of_cons opts h
  refine ⟨line, hline, ?_⟩
  unfold analyze analyze? analyzeLines?
  rw [hck]
  simp

/-- Master well-formedness fact: every diagnostic of `analyze` has a
single-line range with a valid line index, a nonnegative start column, an
end column bounded by the raw line length, and the `jyro` source tag. -/
theorem analyze_WF {text : String} {opts : AnalyzerOptions} {d : Diagnostic}
    (h : d ∈ analyze text opts) :
    d.endLine = d.startLine ∧ d.source = "jyro" ∧
    0 ≤ d.startChar ∧ d.startChar ≤ d.endChar ∧
    ∃ line, (toLines text)[d.startLine]? = some line ∧
      d.endChar ≤ line.length := by
  have hsyn : ∀ e ∈ newDiags opts (zipIdx 0 (toLines text)) ([], 0),
      e.endLine = e.startLine ∧ e.source = "jyro" ∧
      0 ≤ e.startChar ∧ e.startChar ≤ e.endChar ∧
      ∃ line, (toLines text)[e.startLine]? = some line ∧
        e.endChar ≤ line.length := by
    refine newDiags_all ?_
    intro p hp st e he
    obtain ⟨hlt, hget⟩ := zipIdx_lt hp
    obtain ⟨h1, h2, h3, h4, h5, h6, -⟩ := lineDiags_mem he
    exact ⟨h2.trans h1.symm, h3, h4, h5, p.2, h1 ▸ hget, h6⟩
  have hsem : ∀ e ∈ validateAll (declaredOf (extractSymbols (toLines text)))
      (zipIdx 0 (toLines text)),
      e.endLine = e.startLine ∧ e.source = "jyro" ∧
      0 ≤ e.startChar ∧ e.startChar ≤ e.endChar ∧
      ∃ line, (toLines text)[e.startLine]? = some line ∧
        e.endChar ≤ line.length := by
    refine validateAll_all ?_
    intro p hp e he
    obtain ⟨hlt, hget⟩ := zipIdx_lt hp
    obtain ⟨h1, h2, h3, h4, h5, h6, -, -⟩ := validLine_mem he
    exact ⟨h2.trans h1.symm, h3, h4, h5, p.2, h1 ▸ hget, h6⟩
  rcases hst : (runState (zipIdx 0 (toLines text)) ([], 0)).1 with - | ⟨top, rest⟩
  · rw [analyze_of_nil opts hst] at h
    rcases List.mem_append.mp h with h1 | h2
    · exact hsyn d h1
    · exact hsem d h2
  · obtain ⟨line, hline, heq⟩ := analyze_of_cons opts hst
    rw [heq] at h
    rcases List.mem_append.mp h with h12 | h3
    · rcases List.mem_append.mp h12 with h1 | h2
      · exact hsyn d h1
      · simp only [List.mem_singleton] at h2
        subst h2
        dsimp only [addDiagnostic]
        exact ⟨rfl, rfl, le_refl _, by exact_mod_cast Nat.zero_le _,
          line, hline, le_refl _⟩
    · exact hsem d h3

/-- C10: every diagnostic returned by `analyze()` is well-formed: its range
starts and ends on the same line, that line index is a valid index into the
document's line sequence, its start character is nonnegative and at most
its end character, and its source tag is the fixed literal "jyro". -/
theorem claim_C10 (text : String) (opts : AnalyzerOptions) (d : Diagnostic)
    (h : d ∈ analyze text opts) :
    d.endLine = d.startLine ∧ d.startLine < (toLines text).length ∧
    0 ≤ d.startChar ∧ d.startChar ≤ d.endChar ∧ d.source = "jyro" := by
  obtain ⟨h1, h2, h3, h4, line, h5, -⟩ := analyze_WF h
  refine ⟨h1, ?_, h3, h4, h2⟩
  by_contra hge
  rw [List.getElem?_eq_none (by omega)] at h5
  exact Option.noConfusion h5

/-- Witness for C10 at a concrete input: the unexpected-`end` diagnostic of
the one-line document `end` is well-formed. -/
theorem claim_C10_witness :
    (addDiagnostic 0 0 0 3 msgUnexpectedEnd .Error).endLine =
        (addDiagnostic 0 0 0 3 msgUnexpectedEnd .Error).startLine ∧
      (addDiagnostic 0 0 0 3 msgUnexpectedEnd .Error).startLine <
        (toLines "end").length ∧
      0 ≤ (addDiagnostic 0 0 0 3 msgUnexpectedEnd .Error).startChar ∧
      (addDiagnostic 0 0 0 3 msgUnexpectedEnd .Error).startChar ≤
        (addDiagnostic 0 0 0 3 msgUnexpectedEnd .Error).endChar ∧
      (addDiagnostic 0 0 0 3 msgUnexpectedEnd .Error).source = "jyro" :=
  claim_C10 "end" ⟨true⟩ (addDiagnostic 0 0 0 3 msgUnexpectedEnd .Error) (by decide)

/-- C2 (amended): every diagnostic range lies within the bounds of the
original raw line (nonnegative start, end at most the raw line length) —
but the unresolved-call-reference Information diagnostic's column is the
leading-whitespace count plus the match index in the comment-stripped,
string-replaced copy, so when a nonempty string literal precedes the call
the range does not locate the token in the raw line (see the
counterexample). -/
theorem claim_C2_amended (text : String) (opts : AnalyzerOptions)
    (d : Diagnostic) (h : d ∈ analyze text opts) :
    ∃ line, (toLines text)[d.startLine]? = some line ∧
      0 ≤ d.startChar ∧ d.startChar ≤ d.endChar ∧
      d.endChar ≤ line.length := by
  obtain ⟨-, -, h3, h4, line, h5, h6⟩ := analyze_WF h
  exact ⟨line, h5, h3, h4, h6⟩

/-- Witness for the amended C2 at a concrete input: the unclosed-string
diagnostic of the one-line document `"x` fits in the raw line. -/
theorem claim_C2_amended_witness :
    ∃ line, (toLines "\"x")[(addDiagnostic 0 0 0 2 msgUnclosedStr .Error).startLine]? =
        some line ∧
      0 ≤ (addDiagnostic 0 0 0 2 msgUnclosedStr .Error).startChar ∧
      (addDiagnostic 0 0 0 2 msgUnclosedStr .Error).startChar ≤
        (addDiagnostic 0 0 0 2 msgUnclosedStr .Error).endChar ∧
      (addDiagnostic 0 0 0 2 msgUnclosedStr .Error).endChar ≤ line.length :=
  claim_C2_amended "\"x" ⟨true⟩ (addDiagnostic 0 0 0 2 msgUnclosedStr .Error)
    (by decide)

/-- The unclosed-string check fires on every processed line with an odd
quote count, whatever the block stack and loop counter are. -/
theorem lineDiags_quote {opts : AnalyzerOptions} {i : Nat} {line : Line}
    {stack : List BlockEntry} {inLoop : Int}
    (hns : lineSkipped (jsTrim line) = false)
    (hq : countQuotes line % 2 = 1) :
    addDiagnostic i 0 i line.length msgUnclosedStr .Error ∈
      lineDiags opts i line stack inLoop := by
  unfold lineDiags
  dsimp only
  rw [hns]
  simp only [Bool.false_eq_true, if_false, List.mem_append]
  refine Or.inl (Or.inl (Or.inl (Or.inl ?_)))
  unfold quoteDiags
  rw [hq]
  simp

/-- C3 (amended): every line of the document that the per-line loop
actually processes (trimmed form nonempty and not starting with `#`) and
whose raw quote count is odd receives an "Unclosed string literal" Error
spanning the line's full column range.  (Lines skipped as comments or
blanks are exempt — see the counterexample.) -/
theorem claim_C3_amended (text : String) (opts : AnalyzerOptions) (i : Nat)
    (line : Line) (h : (toLines text)[i]? = some line)
    (hns : lineSkipped (jsTrim line) = false)
    (hq : countQuotes line % 2 = 1) :
    addDiagnostic i 0 i line.length msgUnclosedStr .Error ∈ analyze text opts := by
  have hmem : (i, line) ∈ zipIdx 0 (toLines text) := by
    simpa using zipIdx_mem 0 h
  have hin : ∀ st : List BlockEntry × Int,
      addDiagnostic i 0 i line.length msgUnclosedStr .Error ∈
        lineDiags opts i line st.1 st.2 :=
    fun _ => lineDiags_quote hns hq
  rcases hst : (runState (zipIdx 0 (toLines text)) ([], 0)).1 with - | ⟨top, rest⟩
  · rw [analyze_of_nil opts hst]
    exact List.mem_append.mpr (Or.inl (newDiags_mem hmem hin))
  · obtain ⟨l2, -, heq⟩ := analyze_of_cons opts hst
    rw [heq]
    exact List.mem_append.mpr (Or.inl (List.mem_append.mpr
      (Or.inl (newDiags_mem hmem hin))))

/-- Witness for the amended C3 at a concrete input: the one-line document
`"` gets its unclosed-string Error. -/
theorem claim_C3_amended_witness :
    addDiagnostic 0 0 0 1 msgUnclosedStr .Error ∈ analyze "\"" ⟨true⟩ :=
  claim_C3_amended "\"" ⟨true⟩ 0 ['"'] (by decide) (by decide) (by decide)

/-! ## Classifying unclosed-block diagnostics -/

/-- No per-line diagnostic is an unclosed-block diagnostic. -/
theorem lineDiags_not_unclosedBlock {opts : AnalyzerOptions} {i : Nat}
    {line : Line} {stack : List BlockEntry} {inLoop : Int} {d : Diagnostic}
    (h : d ∈ lineDiags opts i line stack inLoop) :
    isUnclosedBlockDiag d = false := by
  obtain ⟨-, -, -, -, -, -, hmsg⟩ := lineDiags_mem h
  unfold isUnclosedBlockDiag
  rcases hmsg with ⟨hm, -⟩ | ⟨hm, -⟩ | ⟨kw, hkw, hm, -⟩ | ⟨ty, hm, -⟩ |
    ⟨nm, hm, -, -, -⟩
  · rw [hm]
    decide
  · rw [hm]
    decide
  · rcases hkw with rfl | rfl <;> rw [hm] <;> decide
  · rw [hm]
    rfl
  · rw [hm]
    rfl

/-- No semantic-validator diagnostic is an unclosed-block diagnostic. -/
theorem validLine_not_unclosedBlock {declared : List String} {i : Nat}
    {line : Line} {d : Diagnostic} (h : d ∈ validLine declared i line) :
    isUnclosedBlockDiag d = false := by
  obtain ⟨-, -, -, -, -, -, -, nm, hm⟩ := validLine_mem h
  unfold isUnclosedBlockDiag
  rw [hm]
  rfl

/-- C4 (amended): whenever the block stack is nonempty at end of document
and its innermost (top-of-stack) entry is a `while`, `analyze()` produces
exactly one unclosed-block Error diagnostic, anchored at that `while`'s
opening line and naming "while"; in general only the top-of-stack entry is
reported, so an unclosed `while` buried under another open block is not
named (see the counterexample). -/
theorem claim_C4_amended (text : String) (opts : AnalyzerOptions)
    (b : BlockEntry) (rest : List BlockEntry)
    (hst : (runState (zipIdx 0 (toLines text)) ([], 0)).1 = b :: rest)
    (hty : b.type = "while") :
    ∃ line, (toLines text)[b.line]? = some line ∧
      (analyze text opts).filter isUnclosedBlockDiag =
        [addDiagnostic b.line 0 b.line line.length
          (msgUnclosedBlock "while") .Error] := by
  obtain ⟨line, hline, heq⟩ := analyze_of_cons opts hst
  refine ⟨line, hline, ?_⟩
  rw [heq, List.filter_append, List.filter_append]
  have h1 : (newDiags opts (zipIdx 0 (toLines text)) ([], 0)).filter
      isUnclosedBlockDiag = [] := by
    rw [List.filter_eq_nil]
    intro d hd
    have hfalse := newDiags_all
      (P := fun e => isUnclosedBlockDiag e = false)
      (fun p hp st e he => lineDiags_not_unclosedBlock he) d hd
    simp [hfalse]
  have h3 : (validateAll (declaredOf (extractSymbols (toLines text)))
      (zipIdx 0 (toLines text))).filter isUnclosedBlockDiag = [] := by
    rw [List.filter_eq_nil]
    intro d hd
    have hfalse := validateAll_all
      (P := fun e => isUnclosedBlockDiag e = false)
      (fun p hp e he => validLine_not_unclosedBlock he) d hd
    simp [hfalse]
  rw [h1, h3, hty]
  simp only [List.nil_append, List.append_nil]
  rw [List.filter_singleton]
  have hpos : isUnclosedBlockDiag (addDiagnostic b.line 0 b.line
      line.length (msgUnclosedBlock "while") .Error) = true := rfl
  simp [hpos]

/-- Witness for the amended C4 at a concrete input: `while true` leaves
`⟨while, 0⟩` on top of the stack and gets exactly one unclosed-block Error
naming "while" at line 0. -/
theorem claim_C4_amended_witness :
    ∃ line, (toLines "while true")[(0 : Nat)]? = some line ∧
      (analyze "while true" ⟨true⟩).filter isUnclosedBlockDiag =
        [addDiagnostic 0 0 0 line.length (msgUnclosedBlock "while") .Error] :=
  claim_C4_amended "while true" ⟨true⟩ ⟨"while", 0⟩ [] (by decide) rfl

/-- Every Information-severity diagnostic of `analyze` is an
unresolved-call-reference note: it exists only when `warnOnHostFunctions`
is set, and it names a function that is neither a keyword nor in the
Function Registry. -/
theorem analyze_info {text : String} {opts : AnalyzerOptions} {d : Diagnostic}
    (h : d ∈ analyze text opts) (hsev : d.severity = .Information) :
    opts.warnOnHostFunctions = true ∧
    ∃ nm : String, nm ∉ functionNames ∧ nm ∉ keywords ∧ d.message = msgHostFn nm := by
  have hsyn : ∀ e ∈ newDiags opts (zipIdx 0 (toLines text)) ([], 0),
      e.severity = .Information →
      opts.warnOnHostFunctions = true ∧
      ∃ nm : String, nm ∉ functionNames ∧ nm ∉ keywords ∧
        e.message = msgHostFn nm := by
    refine newDiags_all ?_
    intro p hp st e he hsev2
    obtain ⟨-, -, -, -, -, -, hmsg⟩ := lineDiags_mem he
    rcases hmsg with ⟨-, hm⟩ | ⟨-, hm⟩ | ⟨kw, -, -, hm⟩ | ⟨ty, -, hm⟩ |
      ⟨nm, hm, -, hwarn, hkw, hfn⟩
    · rw [hm] at hsev2
      exact absurd hsev2 (by simp)
    · rw [hm] at hsev2
      exact absurd hsev2 (by simp)
    · rw [hm] at hsev2
      exact absurd hsev2 (by simp)
    · rw [hm] at hsev2
      exact absurd hsev2 (by simp)
    · exact ⟨hwarn, String.mk nm, hfn, hkw, hm⟩
  have hsem : ∀ e ∈ validateAll (declaredOf (extractSymbols (toLines text)))
      (zipIdx 0 (toLines text)), e.severity = .Information →
      opts.warnOnHostFunctions = true ∧
      ∃ nm : String, nm ∉ functionNames ∧ nm ∉ keywords ∧
        e.message = msgHostFn nm := by
    refine validateAll_all ?_
    intro p hp e he hsev2
    obtain ⟨-, -, -, -, -, -, hw, -⟩ := validLine_mem he
    rw [hw] at hsev2
    exact absurd hsev2 (by simp)
  rcases hst : (runState (zipIdx 0 (toLines text)) ([], 0)).1 with - | ⟨top, rest⟩
  · rw [analyze_of_nil opts hst] at h
    rcases List.mem_append.mp h with h1 | h2
    · exact hsyn d h1 hsev
    · exact hsem d h2 hsev
  · obtain ⟨line, -, heq⟩ := analyze_of_cons opts hst
    rw [heq] at h
    rcases List.mem_append.mp h with h12 | h3
    · rcases List.mem_append.mp h12 with h1 | h2
      · exact hsyn d h1 hsev
      · simp only [List.mem_singleton] at h2
        subst h2
        exact absurd hsev (by simp [addDiagnostic])
    · exact hsem d h3 hsev

/-- C6 (amended): with `warnOnHostFunctions: false` no Information
diagnostic is ever produced; with the flag `true`, every Information
diagnostic names a function absent from the Function Registry
(case-sensitively) that is not a reserved keyword, so a registered name or
a PascalCase keyword such as `Data` never yields one; and the call `Foo()`
to an unregistered non-keyword name yields exactly one such diagnostic. -/
theorem claim_C6_amended :
    (∀ (text : String) (d : Diagnostic), d ∈ analyze text ⟨false⟩ →
      d.severity ≠ .Information) ∧
    (∀ (text : String) (opts : AnalyzerOptions) (d : Diagnostic),
      d ∈ analyze text opts → d.severity = .Information →
      ∃ nm : String, nm ∉ functionNames ∧ nm ∉ keywords ∧
        d.message = msgHostFn nm) ∧
    analyze "Foo()" ⟨true⟩ =
      [addDiagnostic 0 0 0 3 (msgHostFn "Foo") .Information] := by
  refine ⟨?_, ?_, by decide⟩
  · intro text d h hsev
    have h2 := (analyze_info h hsev).1
    simp at h2
  · intro text opts d h hsev
    exact (analyze_info h hsev).2

/-- Witness for the amended C6 at a concrete input: the Information
diagnostic for `Foo()` names a function outside both the registry and the
keyword list. -/
theorem claim_C6_amended_witness :
    ∃ nm : String, nm ∉ functionNames ∧ nm ∉ keywords ∧
      (addDiagnostic 0 0 0 3 (msgHostFn "Foo") .Information).message =
        msgHostFn nm :=
  claim_C6_amended.2.1 "Foo()" ⟨true⟩
    (addDiagnostic 0 0 0 3 (msgHostFn "Foo") .Information) (by decide) rfl

/-- An invalid-type message is never a loop-control message. -/
theorem isLoopCtl_badType (sl : Nat) (sc : Int) (el : Nat) (ec : Int) (ty : String) :
    isLoopCtlDiag (addDiagnostic sl sc el ec (msgBadType ty) .Error) = false := by
  cases ty
  rfl

/-- A host-function message is never a loop-control message. -/
theorem isLoopCtl_hostFn (sl : Nat) (sc : Int) (el : Nat) (ec : Int) (nm : String) :
    isLoopCtlDiag (addDiagnostic sl sc el ec (msgHostFn nm) .Information) = false := by
  cases nm
  rfl

/-- An undefined-variable message is never a loop-control message. -/
theorem isLoopCtl_undefVar (sl : Nat) (sc : Int) (el : Nat) (ec : Int) (nm : String) :
    isLoopCtlDiag (addDiagnostic sl sc el ec (msgUndefVar nm) .Warning) = false := by
  cases nm
  rfl

/-- An unclosed-block message is never a loop-control message. -/
theorem isLoopCtl_unclosedBlock (sl : Nat) (sc : Int) (el : Nat) (ec : Int)
    (ty : String) :
    isLoopCtlDiag (addDiagnostic sl sc el ec (msgUnclosedBlock ty) .Error) = false := by
  cases ty
  rfl

/-- Generic helper: a filter over elements on which the predicate is false
yields the empty list. -/
theorem filter_nil_of_false {α : Type} {p : α → Bool} {l : List α}
    (h : ∀ a ∈ l, p a = false) : l.filter p = [] := by
  rw [List.filter_eq_nil]
  intro a ha
  simp [h a ha]

/-- On the processed line itself, filtering the per-line diagnostics for
loop-control diagnostics leaves exactly the output of the break/continue
check (at the loop depth after this line's push and `end` handling). -/
theorem lineDiags_filter_ctl {opts : AnalyzerOptions} {i : Nat} {line : Line}
    {stack : List BlockEntry} {inLoop : Int}
    (hns : lineSkipped (jsTrim line) = false) :
    (lineDiags opts i line stack inLoop).filter
        (fun d => isLoopCtlDiag d && d.startLine == i) =
      ctlDiags i (jsTrim line) (strippedOf (jsTrim line))
        (endStep i (jsTrim line) (strippedOf (jsTrim line))
          (blockPush i (jsTrim line) (strippedOf (jsTrim line)) stack inLoop).1
          (blockPush i (jsTrim line) (strippedOf (jsTrim line)) stack inLoop).2).2.1 := by
  unfold lineDiags
  dsimp only
  rw [hns]
  simp only [Bool.false_eq_true, if_false]
  rw [List.filter_append, List.filter_append, List.filter_append, List.filter_append]
  have hquote : (quoteDiags i line).filter
      (fun d => isLoopCtlDiag d && d.startLine == i) = [] := by
    refine filter_nil_of_false ?_
    intro a ha
    unfold quoteDiags at ha
    split at ha
    · simp only [List.mem_singleton] at ha
      subst ha
      simp [isLoopCtlDiag, addDiagnostic, msgUnclosedStr, msgCtl]
    · simp at ha
  have hend : ((endStep i (jsTrim line) (strippedOf (jsTrim line))
      (blockPush i (jsTrim line) (strippedOf (jsTrim line)) stack inLoop).1
      (blockPush i (jsTrim line) (strippedOf (jsTrim line)) stack inLoop).2).2.2).filter
      (fun d => isLoopCtlDiag d && d.startLine == i) = [] := by
    refine filter_nil_of_false ?_
    intro a ha
    unfold endStep at ha
    split at ha
    · split at ha
      · simp only [List.mem_singleton] at ha
        subst ha
        simp [isLoopCtlDiag, addDiagnostic, msgUnexpectedEnd, msgCtl]
      · simp at ha
    · simp at ha
  have hctl : ((ctlDiags i (jsTrim line) (strippedOf (jsTrim line))
      (endStep i (jsTrim line) (strippedOf (jsTrim line))
        (blockPush i (jsTrim line) (strippedOf (jsTrim line)) stack inLoop).1
        (blockPush i (jsTrim line) (strippedOf (jsTrim line)) stack inLoop).2).2.1)).filter
      (fun d => isLoopCtlDiag d && d.startLine == i) =
      ctlDiags i (jsTrim line) (strippedOf (jsTrim line))
        (endStep i (jsTrim line) (strippedOf (jsTrim line))
          (blockPush i (jsTrim line) (strippedOf (jsTrim line)) stack inLoop).1
          (blockPush i (jsTrim line) (strippedOf (jsTrim line)) stack inLoop).2).2.1 := by
    unfold ctlDiags
    split
    · rw [List.filter_singleton]
      suffices hcond : (isLoopCtlDiag (addDiagnostic i 0 i ((jsTrim line).length : Int)
          (msgCtl (ctlKw (strippedOf (jsTrim line)))) .Error) &&
          ((addDiagnostic i 0 i ((jsTrim line).length : Int)
            (msgCtl (ctlKw (strippedOf (jsTrim line)))) .Error).startLine == i)) = true by
        simp [hcond]
      unfold ctlKw
      split <;> simp [isLoopCtlDiag, addDiagnostic]
    · rfl
  have htype : (typeDiags i line (jsTrim line)).filter
      (fun d => isLoopCtlDiag d && d.startLine == i) = [] := by
    refine filter_nil_of_false ?_
    intro a ha
    unfold typeDiags at ha
    split at ha
    · split at ha
      · split at ha
        · simp at ha
        · simp only [List.mem_singleton] at ha
          subst ha
          simp [isLoopCtl_badType]
      · simp at ha
    · simp at ha
  have hfunc : (funcDiags opts i line (strippedOf (jsTrim line))).filter
      (fun d => isLoopCtlDiag d && d.startLine == i) = [] := by
    refine filter_nil_of_false ?_
    intro a ha
    unfold funcDiags at ha
    split at ha
    · simp only [List.mem_filterMap] at ha
      obtain ⟨m, hm, hd⟩ := ha
      split at hd
      · simp at hd
      · split at hd
        · simp at hd
        · simp only [Option.some.injEq] at hd
          subst hd
          simp [isLoopCtl_hostFn]
    · simp at ha
  rw [hquote, hend, hctl, htype, hfunc]
  simp

/-- Loop-control diagnostics never arise from the semantic validator. -/
theorem validLine_not_ctl {declared : List String} {j : Nat} {line : Line}
    {d : Diagnostic} (h : d ∈ validLine declared j line) :
    isLoopCtlDiag d = false := by
  obtain ⟨-, -, -, -, -, -, -, nm, hm⟩ := validLine_mem h
  unfold isLoopCtlDiag
  rw [hm]
  rfl

/-- C5 (amended): the loop-control diagnostics that `analyze()` attributes
to line `i` are exactly those of that line's break/continue check: one
Error spanning the trimmed line's columns when the stripped line carries a
`break` or `continue` word token and the loop-depth counter (after this
line's own push and `end` handling) is 0 — the message naming "break"
whenever the stripped line contains the substring `break`, else
"continue" — and none otherwise (in particular never when the counter is
positive, e.g. between a `foreach` opener and its matching `end`). -/
theorem claim_C5_amended (text : String) (opts : AnalyzerOptions) (i : Nat)
    (line : Line) (h : (toLines text)[i]? = some line)
    (hns : lineSkipped (jsTrim line) = false) :
    (analyze text opts).filter (fun d => isLoopCtlDiag d && d.startLine == i) =
      ctlDiags i (jsTrim line) (strippedOf (jsTrim line))
        (ctlDepth (toLines text) i line) := by
  have hlt : i < (toLines text).length := by
    by_contra hge
    rw [List.getElem?_eq_none (by omega)] at h
    exact Option.noConfusion h
  have hgete : (toLines text)[i] = line := by
    have h2 := List.getElem?_eq_getElem hlt
    rw [h] at h2
    exact (Option.some.injEq _ _ ▸ h2.symm :)
  have hLeq : toLines text =
      (toLines text).take i ++ line :: (toLines text).drop (i + 1) := by
    conv_lhs => rw [← List.take_append_drop i (toLines text)]
    rw [List.drop_eq_getElem_cons hlt, hgete]
  have hzip : zipIdx 0 (toLines text) =
      zipIdx 0 ((toLines text).take i) ++
        ((i, line) :: zipIdx (i + 1) ((toLines text).drop (i + 1))) := by
    conv_lhs => rw [hLeq]
    rw [zipIdx_append]
    have hlen : ((toLines text).take i).length = i :=
      List.length_take_of_le (by omega)
    rw [hlen]
    simp [zipIdx]
  have hA : ∀ d ∈ newDiags opts (zipIdx 0 ((toLines text).take i)) ([], 0),
      (isLoopCtlDiag d && d.startLine == i) = false := by
    refine newDiags_all ?_
    intro p hp st d hd
    obtain ⟨h1, -⟩ := lineDiags_mem hd
    obtain ⟨hplt, -⟩ := zipIdx_lt hp
    rw [List.length_take] at hplt
    have hne : p.1 ≠ i := by omega
    rw [h1]
    simp [hne]
  have hB : ∀ spre, ∀ d ∈ newDiags opts
      (zipIdx (i + 1) ((toLines text).drop (i + 1))) spre,
      (isLoopCtlDiag d && d.startLine == i) = false := by
    intro spre
    refine newDiags_all ?_
    intro p hp st d hd
    obtain ⟨h1, -⟩ := lineDiags_mem hd
    obtain ⟨hge, -⟩ := mem_zipIdx hp
    have hne : p.1 ≠ i := by omega
    rw [h1]
    simp [hne]
  have hsem : ∀ d ∈ validateAll (declaredOf (extractSymbols (toLines text)))
      (zipIdx 0 (toLines text)), (isLoopCtlDiag d && d.startLine == i) = false := by
    refine validateAll_all ?_
    intro p hp d hd
    rw [validLine_not_ctl hd]
    rfl
  have hmain : (newDiags opts (zipIdx 0 (toLines text)) ([], 0)).filter
      (fun d => isLoopCtlDiag d && d.startLine == i) =
      ctlDiags i (jsTrim line) (strippedOf (jsTrim line))
        (ctlDepth (toLines text) i line) := by
    rw [hzip, newDiags_append]
    simp only [newDiags]
    rw [List.filter_append, List.filter_append]
    rw [filter_nil_of_false (hA), filter_nil_of_false
      (hB (stepState i line (runState (zipIdx 0 ((toLines text).take i)) ([], 0))))]
    rw [lineDiags_filter_ctl hns]
    simp only [List.nil_append, List.append_nil]
    rfl
  rcases hst : (runState (zipIdx 0 (toLines text)) ([], 0)).1 with - | ⟨top, rest⟩
  · rw [analyze_of_nil opts hst, List.filter_append, hmain,
      filter_nil_of_false hsem, List.append_nil]
  · obtain ⟨l2, -, heq⟩ := analyze_of_cons opts hst
    rw [heq, List.filter_append, List.filter_append, hmain,
      filter_nil_of_false hsem, List.append_nil]
    have hu : (isLoopCtlDiag (addDiagnostic top.line 0 top.line l2.length
        (msgUnclosedBlock top.type) .Error) &&
        (addDiagnostic top.line 0 top.line (l2.length : Int)
          (msgUnclosedBlock top.type) .Error).startLine == i) = false := by
      rw [isLoopCtl_unclosedBlock]
      rfl
    rw [List.filter_singleton]
    rw [hu]
    simp

/-- Witness for the amended C5 at a concrete input: in
`foreach i in xs` / `break` / `end` / `break`, the final `break` (loop
depth 0) yields exactly one Error naming "break" on line 3, while the
`break` inside the `foreach` (line 1, loop depth 1) yields none. -/
theorem claim_C5_amended_witness :
    (analyze "foreach i in xs\nbreak\nend\nbreak" ⟨true⟩).filter
        (fun d => isLoopCtlDiag d && d.startLine == 3) =
      [addDiagnostic 3 0 3 5 (msgCtl "break") .Error] ∧
    (analyze "foreach i in xs\nbreak\nend\nbreak" ⟨true⟩).filter
        (fun d => isLoopCtlDiag d && d.startLine == 1) = [] := by
  constructor
  · have h := claim_C5_amended "foreach i in xs\nbreak\nend\nbreak" ⟨true⟩ 3
      "break".data (by decide) (by decide)
    rw [h]
    decide
  · have h := claim_C5_amended "foreach i in xs\nbreak\nend\nbreak" ⟨true⟩ 1
      "break".data (by decide) (by decide)
    rw [h]
    decide

/-! ## Shape of extracted symbol names -/

/-- A list of word characters never contains a dot. -/
theorem undotted_of_word {nm : Line} (h : ∀ c ∈ nm, isWordChar c = true) :
    nm.contains '.' = false := by
  by_contra hcon
  have hmem : '.' ∈ nm := List.elem_iff.mp (by
    rcases hb : nm.contains '.' with - | -
    · exact absurd hb hcon
    · exact hb)
  have := h '.' hmem
  simp [isWordChar] at this

/-- Variable names found by the `var` scanner consist of word characters. -/
theorem varGo_name {l : Line} {fuel i : Nat} {m : Nat × Line × Option Line}
    (h : m ∈ varGo l fuel i) : ∀ c ∈ m.2.1, isWordChar c = true := by
  induction fuel generalizing i with
  | zero => simp [varGo] at h
  | succ fuel ih =>
    rw [varGo] at h
    split at h
    · simp at h
    · split at h
      · dsimp only at h
        split at h
        · exact ih h
        · split at h
          · split at h
            · rcases List.mem_cons.mp h with heq | htail
              · subst heq
                exact fun c hc => List.mem_takeWhile_imp hc
              · exact ih htail
            · rcases List.mem_cons.mp h with heq | htail
              · subst heq
                exact fun c hc => List.mem_takeWhile_imp hc
              · exact ih htail
          · rcases List.mem_cons.mp h with heq | htail
            · subst heq
              exact fun c hc => List.mem_takeWhile_imp hc
            · exact ih htail
      · exact ih h

/-- The `foreach` iteration variable consists of word characters. -/
theorem foreachVar_name {t nm : Line} (h : foreachVar t = some nm) :
    ∀ c ∈ nm, isWordChar c = true := by
  unfold foreachVar at h
  obtain ⟨j, -, hj⟩ := List.exists_of_findSome?_eq_some h
  split at hj
  · dsimp only at hj
    split at hj
    · exact absurd hj (by simp)
    · split at hj
      · exact absurd hj (by simp)
      · split at hj
        · simp only [Option.some.injEq] at hj
          subst hj
          exact fun c hc => List.mem_takeWhile_imp hc
        · exact absurd hj (by simp)
  · exact absurd hj (by simp)

/-- A nonzero greedy segment consumption starts at a dot. -/
theorem dotSegsGo_dot {l : Line} {fuel j : Nat} (h : dotSegsGo l fuel j ≠ 0) :
    l[j]? = some '.' := by
  cases fuel with
  | zero => simp [dotSegsGo] at h
  | succ fuel =>
    rw [dotSegsGo] at h
    split at h
    · next d rest2 heq =>
      have h0 : (l.drop j)[0]? = some '.' := by
        rw [heq]
        rfl
      rw [List.getElem?_drop] at h0
      simpa using h0
    · simp at h

/-- Every dotted-assignment path found by the scanner contains a dot. -/
theorem propGo_dotted {l : Line} {fuel i : Nat} {m : Nat × Line}
    (h : m ∈ propGo l fuel i) : m.2.contains '.' = true := by
  induction fuel generalizing i with
  | zero => simp [propGo] at h
  | succ fuel ih =>
    rw [propGo] at h
    split at h
    · simp at h
    · next c rest hd =>
      split at h
      · dsimp only at h
        split at h
        · exact ih h
        · next hsegs =>
          split at h
          · rcases List.mem_cons.mp h with heq | htail
            · subst heq
              dsimp only
              have hdot : l[i + (1 + (rest.takeWhile isWordChar).length)]? = some '.' := by
                refine @dotSegsGo_dot l (l.length + 1) _ ?_
                intro h0
                rw [show dotSegs l (i + (1 + (rest.takeWhile isWordChar).length)) =
                  dotSegsGo l (l.length + 1)
                    (i + (1 + (rest.takeWhile isWordChar).length)) from rfl] at hsegs
                simp [h0] at hsegs
              have hbase : ((l.drop i).take
                  ((1 + (rest.takeWhile isWordChar).length) +
                    dotSegs l (i + (1 + (rest.takeWhile isWordChar).length))))[
                      (1 + (rest.takeWhile isWordChar).length)]? = some '.' := by
                rw [List.getElem?_take_of_lt, List.getElem?_drop]
                · exact hdot
                · have : dotSegs l (i + (1 + (rest.takeWhile isWordChar).length)) ≠ 0 := by
                    intro h0
                    simp [h0] at hsegs
                  omega
              have hmem : '.' ∈ (l.drop i).take
                  ((1 + (rest.takeWhile isWordChar).length) +
                    dotSegs l (i + (1 + (rest.takeWhile isWordChar).length))) := by
                exact List.getElem?_mem hbase
              exact List.elem_iff.mpr hmem
            · exact ih htail
          · exact ih h
      · exact ih h

/-- `dottedSyms` distributes over append. -/
theorem dottedSyms_append (a b : List SymbolInfo) :
    dottedSyms (a ++ b) = dottedSyms a ++ dottedSyms b := by
  simp [dottedSyms, List.filter_append]

/-- Invariant of the first-write-wins fold over one line's dotted
assignment matches: dotted symbol names stay duplicate-free, the seen set
is exactly the dotted names, dotted symbols carry the `property` tag, and
the dotted names grow by exactly the paths of the processed matches. -/
theorem propFold_inv {i : Nat} {line : Line} {ms : List (Nat × Line)}
    {acc : List SymbolInfo × List String}
    (hdot : ∀ m ∈ ms, m.2.contains '.' = true)
    (hnodup : ((dottedSyms acc.1).map (fun s => s.name)).Nodup)
    (hseen : ∀ p : String, p ∈ acc.2 ↔ p ∈ (dottedSyms acc.1).map (fun s => s.name))
    (htype : ∀ s ∈ acc.1, s.name.data.contains '.' = true →
      s.type = some "property") :
    ((dottedSyms (propFold i line ms acc).1).map (fun s => s.name)).Nodup ∧
    (∀ p : String, p ∈ (propFold i line ms acc).2 ↔
      p ∈ (dottedSyms (propFold i line ms acc).1).map (fun s => s.name)) ∧
    (∀ s ∈ (propFold i line ms acc).1, s.name.data.contains '.' = true →
      s.type = some "property") ∧
    (∀ p : String,
      p ∈ (dottedSyms (propFold i line ms acc).1).map (fun s => s.name) ↔
      p ∈ (dottedSyms acc.1).map (fun s => s.name) ∨ ∃ m ∈ ms, String.mk m.2 = p) := by
  induction ms generalizing acc with
  | nil =>
    refine ⟨hnodup, hseen, htype, ?_⟩
    simp [propFold]
  | cons m ms ih =>
    rw [propFold]
    split
    · next hcont =>
      obtain ⟨h1, h2, h3, h4⟩ := ih (fun q hq => hdot q (List.mem_cons_of_mem m hq))
        hnodup hseen htype
      refine ⟨h1, h2, h3, ?_⟩
      intro p
      rw [h4 p]
      constructor
      · rintro (hold | ⟨q, hq, hpq⟩)
        · exact Or.inl hold
        · exact Or.inr ⟨q, List.mem_cons_of_mem m hq, hpq⟩
      · rintro (hold | ⟨q, hq, hpq⟩)
        · exact Or.inl hold
        · rcases List.mem_cons.mp hq with rfl | hq2
          · refine Or.inl ((hseen p).mp ?_)
            rw [← hpq]
            exact List.elem_iff.mp hcont
          · exact Or.inr ⟨q, hq2, hpq⟩
    · next hcont =>
      have hmdot : (String.mk m.2).data.contains '.' = true :=
        hdot m (List.mem_cons_self m ms)
      have hnotmem : String.mk m.2 ∉ (dottedSyms acc.1).map (fun s => s.name) := by
        intro hmem
        exact hcont (List.elem_iff.mpr ((hseen _).mpr hmem))
      have hsingle : dottedSyms [(⟨String.mk m.2, some "property", i,
          jsIndexOf m.2 line 0⟩ : SymbolInfo)] =
          [⟨String.mk m.2, some "property", i, jsIndexOf m.2 line 0⟩] := by
        simp only [dottedSyms, List.filter_cons, List.filter_nil]
        split
        · rfl
        · next hno =>
          exact absurd hmdot hno
      have happ : dottedSyms (acc.1 ++ [(⟨String.mk m.2, some "property", i,
          jsIndexOf m.2 line 0⟩ : SymbolInfo)]) =
          dottedSyms acc.1 ++ [⟨String.mk m.2, some "property", i,
            jsIndexOf m.2 line 0⟩] := by
        rw [dottedSyms_append, hsingle]
      have hnodup2 : ((dottedSyms (acc.1 ++ [(⟨String.mk m.2, some "property", i,
          jsIndexOf m.2 line 0⟩ : SymbolInfo)])).map (fun s => s.name)).Nodup := by
        rw [happ, List.map_append]
        simp only [List.map_cons, List.map_nil]
        rw [show ((dottedSyms acc.1).map (fun s => s.name)) ++ [String.mk m.2] =
          (dottedSyms acc.1).map (fun s => s.name) ++ [String.mk m.2] from rfl]
        simp [List.nodup_append, hnodup, hnotmem]
      have hseen2 : ∀ p : String, p ∈ acc.2 ++ [String.mk m.2] ↔
          p ∈ (dottedSyms (acc.1 ++ [(⟨String.mk m.2, some "property", i,
            jsIndexOf m.2 line 0⟩ : SymbolInfo)])).map (fun s => s.name) := by
        intro p
        rw [happ, List.map_append, List.mem_append, List.mem_append, hseen p]
        simp
      have htype2 : ∀ s ∈ acc.1 ++ [(⟨String.mk m.2, some "property", i,
          jsIndexOf m.2 line 0⟩ : SymbolInfo)],
          s.name.data.contains '.' = true → s.type = some "property" := by
        intro s hs
        rcases List.mem_append.mp hs with hs1 | hs2
        · exact htype s hs1
        · simp only [List.mem_singleton] at hs2
          subst hs2
          exact fun _ => rfl
      obtain ⟨h1, h2, h3, h4⟩ := @ih (acc.1 ++ [(⟨String.mk m.2, some "property", i,
          jsIndexOf m.2 line 0⟩ : SymbolInfo)], acc.2 ++ [String.mk m.2])
        (fun q hq => hdot q (List.mem_cons_of_mem m hq)) hnodup2 hseen2 htype2
      refine ⟨h1, h2, h3, ?_⟩
      intro p
      rw [h4 p, happ, List.map_append]
      constructor
      · rintro (hold | ⟨q, hq, hpq⟩)
        · rcases List.mem_append.mp hold with ho1 | ho2
          · exact Or.inl ho1
          · simp only [List.map_cons, List.map_nil, List.mem_singleton] at ho2
            exact Or.inr ⟨m, List.mem_cons_self m ms, ho2.symm⟩
        · exact Or.inr ⟨q, List.mem_cons_of_mem m hq, hpq⟩
      · rintro (hold | ⟨q, hq, hpq⟩)
        · exact Or.inl (List.mem_append.mpr (Or.inl hold))
        · rcases List.mem_cons.mp hq with rfl | hq2
          · refine Or.inl (List.mem_append.mpr (Or.inr ?_))
            simp [hpq.symm]
          · exact Or.inr ⟨q, hq2, hpq⟩

/-- `var`-declaration symbols never carry dotted names. -/
theorem varSymsOf_undotted {i : Nat} {line trimmed : Line} {s : SymbolInfo}
    (h : s ∈ varSymsOf i line trimmed) : s.name.data.contains '.' = false := by
  unfold varSymsOf at h
  simp only [List.mem_map] at h
  obtain ⟨m, hm, hs⟩ := h
  subst hs
  exact undotted_of_word (varGo_name hm)

/-- `foreach` iterator symbols never carry dotted names. -/
theorem foreachSymsOf_undotted {i : Nat} {line trimmed : Line} {s : SymbolInfo}
    (h : s ∈ foreachSymsOf i line trimmed) : s.name.data.contains '.' = false := by
  unfold foreachSymsOf at h
  split at h
  · next nm hnm =>
    simp only [List.mem_singleton] at h
    subst h
    exact undotted_of_word (foreachVar_name hnm)
  · simp at h

/-- A list of symbols with undotted names contributes nothing dotted. -/
theorem dottedSyms_nil_of_undotted {l : List SymbolInfo}
    (h : ∀ s ∈ l, s.name.data.contains '.' = false) : dottedSyms l = [] := by
  unfold dottedSyms
  exact filter_nil_of_false h

/-- Invariant of symbol extraction for one line: dotted names stay
duplicate-free and typed `property`, and they grow by exactly this line's
dotted assignment paths. -/
theorem extractLine_inv {i : Nat} {line : Line}
    {acc : List SymbolInfo × List String}
    (hnodup : ((dottedSyms acc.1).map (fun s => s.name)).Nodup)
    (hseen : ∀ p : String, p ∈ acc.2 ↔ p ∈ (dottedSyms acc.1).map (fun s => s.name))
    (htype : ∀ s ∈ acc.1, s.name.data.contains '.' = true →
      s.type = some "property") :
    ((dottedSyms (extractLine i line acc).1).map (fun s => s.name)).Nodup ∧
    (∀ p : String, p ∈ (extractLine i line acc).2 ↔
      p ∈ (dottedSyms (extractLine i line acc).1).map (fun s => s.name)) ∧
    (∀ s ∈ (extractLine i line acc).1, s.name.data.contains '.' = true →
      s.type = some "property") ∧
    (∀ p : String,
      p ∈ (dottedSyms (extractLine i line acc).1).map (fun s => s.name) ↔
      p ∈ (dottedSyms acc.1).map (fun s => s.name) ∨ p ∈ pathNames line) := by
  unfold extractLine
  dsimp only
  split
  · next hskip =>
    refine ⟨hnodup, hseen, htype, ?_⟩
    intro p
    unfold pathNames
    rw [if_pos hskip]
    simp
  · next hskip =>
    have hbase : dottedSyms (acc.1 ++ varSymsOf i line (jsTrim line) ++
        foreachSymsOf i line (jsTrim line)) = dottedSyms acc.1 := by
      rw [dottedSyms_append, dottedSyms_append]
      rw [dottedSyms_nil_of_undotted (fun s hs => varSymsOf_undotted hs),
        dottedSyms_nil_of_undotted (fun s hs => foreachSymsOf_undotted hs)]
      simp
    have htype2 : ∀ s ∈ acc.1 ++ varSymsOf i line (jsTrim line) ++
        foreachSymsOf i line (jsTrim line),
        s.name.data.contains '.' = true → s.type = some "property" := by
      intro s hs hdotted
      rcases List.mem_append.mp hs with hs12 | hs3
      · rcases List.mem_append.mp hs12 with hs1 | hs2
        · exact htype s hs1 hdotted
        · rw [varSymsOf_undotted hs2] at hdotted
          exact Bool.noConfusion hdotted
      · rw [foreachSymsOf_undotted hs3] at hdotted
        exact Bool.noConfusion hdotted
    obtain ⟨h1, h2, h3, h4⟩ := @propFold_inv i line
      (propAssignMatches (jsTrim line))
      (acc.1 ++ varSymsOf i line (jsTrim line) ++ foreachSymsOf i line (jsTrim line),
        acc.2)
      (fun m hm => propGo_dotted hm)
      (by rw [hbase]; exact hnodup)
      (by intro p; rw [hbase]; exact hseen p)
      htype2
    refine ⟨h1, h2, h3, ?_⟩
    intro p
    rw [h4 p, hbase]
    unfold pathNames
    rw [if_neg hskip]
    simp only [List.mem_map]

/-- Invariant of symbol extraction over the whole document. -/
theorem extractAll_inv {ps : List (Nat × Line)}
    {acc : List SymbolInfo × List String}
    (hnodup : ((dottedSyms acc.1).map (fun s => s.name)).Nodup)
    (hseen : ∀ p : String, p ∈ acc.2 ↔ p ∈ (dottedSyms acc.1).map (fun s => s.name))
    (htype : ∀ s ∈ acc.1, s.name.data.contains '.' = true →
      s.type = some "property") :
    ((dottedSyms (extractAll ps acc).1).map (fun s => s.name)).Nodup ∧
    (∀ s ∈ (extractAll ps acc).1, s.name.data.contains '.' = true →
      s.type = some "property") ∧
    (∀ p : String,
      p ∈ (dottedSyms (extractAll ps acc).1).map (fun s => s.name) ↔
      p ∈ (dottedSyms acc.1).map (fun s => s.name) ∨
        ∃ q ∈ ps, p ∈ pathNames q.2) := by
  induction ps generalizing acc with
  | nil =>
    refine ⟨hnodup, htype, ?_⟩
    simp [extractAll]
  | cons q ps ih =>
    rw [extractAll]
    obtain ⟨e1, e2, e3, e4⟩ := @extractLine_inv q.1 q.2 acc hnodup hseen htype
    obtain ⟨h1, h2, h3⟩ := ih e1 e2 e3
    refine ⟨h1, h2, ?_⟩
    intro p
    rw [h3 p, e4 p]
    constructor
    · rintro ((hold | hline) | ⟨r, hr, hrp⟩)
      · exact Or.inl hold
      · exact Or.inr ⟨q, List.mem_cons_self q ps, hline⟩
      · exact Or.inr ⟨r, List.mem_cons_of_mem q hr, hrp⟩
    · rintro (hold | ⟨r, hr, hrp⟩)
      · exact Or.inl (Or.inl hold)
      · rcases List.mem_cons.mp hr with rfl | hr2
        · exact Or.inl (Or.inr hrp)
        · exact Or.inr ⟨r, hr2, hrp⟩

/-- C7: within one analysis, the dotted-path symbols (exactly those
contributed by the dotted-assignment rule) have pairwise-distinct names and
all carry the `property` type tag, and a path appears among them exactly
when some processed line's dotted-assignment scan matches it — so a second
assignment to the same path adds no second symbol, while an assignment to a
distinct path adds one. -/
theorem claim_C7 (text : String) :
    ((dottedSyms (getSymbols text)).map (fun s => s.name)).Nodup ∧
    (∀ s ∈ dottedSyms (getSymbols text), s.type = some "property") ∧
    (∀ p : String,
      p ∈ (dottedSyms (getSymbols text)).map (fun s => s.name) ↔
      ∃ (i : Nat) (line : Line), (toLines text)[i]? = some line ∧ p ∈ pathNames line) := by
  obtain ⟨h1, h2, h3⟩ := @extractAll_inv (zipIdx 0 (toLines text)) ([], [])
    (by simp [dottedSyms]) (by simp [dottedSyms]) (by simp)
  refine ⟨h1, ?_, ?_⟩
  · intro s hs
    have hmem : s ∈ (extractAll (zipIdx 0 (toLines text)) ([], [])).1 :=
      List.mem_of_mem_filter hs
    exact h2 s hmem (by simpa [dottedSyms] using List.of_mem_filter hs)
  · intro p
    rw [show (dottedSyms (getSymbols text)).map (fun s => s.name) =
      (dottedSyms (extractAll (zipIdx 0 (toLines text)) ([], [])).1).map
        (fun s => s.name) from rfl]
    rw [h3 p]
    simp only [dottedSyms, List.filter_nil, List.map_nil, List.not_mem_nil,
      false_or]
    constructor
    · rintro ⟨q, hq, hqp⟩
      exact ⟨q.1, q.2, (zipIdx_lt hq).2, hqp⟩
    · rintro ⟨i, line, hline, hp⟩
      refine ⟨(i, line), ?_, hp⟩
      simpa using zipIdx_mem 0 hline

/-- Witness for C7 at a concrete input: two assignments to `Data.orders`
and one to `Data.customers` produce exactly two property symbols, in first
occurrence order, and `Data.orders` is among them. -/
theorem claim_C7_witness :
    (dottedSyms (getSymbols "Data.orders = 1\nData.orders = 2\nData.customers = 3")).map
        (fun s => s.name) = ["Data.orders", "Data.customers"] ∧
    ((dottedSyms (getSymbols
        "Data.orders = 1\nData.orders = 2\nData.customers = 3")).map
        (fun s => s.name)).Nodup ∧
    "Data.orders" ∈ (dottedSyms (getSymbols
        "Data.orders = 1\nData.orders = 2\nData.customers = 3")).map
        (fun s => s.name) :=
  ⟨by decide,
   (claim_C7 "Data.orders = 1\nData.orders = 2\nData.customers = 3").1,
   ((claim_C7 "Data.orders = 1\nData.orders = 2\nData.customers = 3").2.2
     "Data.orders").mpr
     ⟨0, "Data.orders = 1".data, by decide, by decide⟩⟩
